import Mathlib

/-!
Shallow embedding of the int64 decoders of `parquet/type_int64.go`
(plain, dictionary and delta-binary-packed decoding) together with the
dynamically typed dispatch wrapper, and proofs of the specification
properties about them.

Go integers are modelled as follows: `byte` sequences as `List Nat`
(entries 0..255), Go `int` (64-bit, used for cursors and counters, never
anywhere near overflow) as `Int`, `int32` header fields as `Int` obtained
through an explicit two's-complement reduction, and `int64` values as
`Int` with the explicit wrap-around `i64` applied exactly where the Go
code performs `int64` arithmetic that may overflow.  Go runtime panics
(slice out of range, index out of range, integer divide by zero,
`make` with negative size) are modelled as distinguished `Err`
constructors prefixed with `goPanic`; they are not Go `error` returns.
-/

/-- Error outcomes of the decoders.  The first group mirrors the `error`
values returned by the Go code (`errNED`, the various `fmt.Errorf` cases);
the `goPanic*` constructors mark Go runtime panics. -/
inductive Err where
  | endOfData            -- errNED, returned by the plain decoder at the end of its buffer
  | plainTruncated       -- "int64/plain: not enough bytes to decode an int64 number"
  | headerBlockSize      -- "int64/delta: failed to read block size"
  | headerMiniBlocks     -- "int64/delta: failed to read number of mini blocks"
  | headerNumValues      -- "int64/delta: failed to read total value count"
  | headerFirstValue     -- "delta: failed to read first value"
  | headerMinDelta       -- "int64/delta: failed to read min delta"
  | headerWidths         -- "int64/delta: failed to read all bitwidths of miniblocks"
  | notEnoughData        -- "int64/delta: not enough data"
  | noMoreData           -- "int64/delta: no more data"
  | indexOutOfRange      -- dictionary key beyond the value table bound
  | keysTruncated        -- key decoder could not produce the requested keys
  | goPanicDivZero       -- Go runtime panic: integer divide by zero
  | goPanicMakeNeg       -- Go runtime panic: make with negative length
  | goPanicWidthsIndex   -- Go runtime panic: miniBlockWidths index out of range
  | goPanicUnpackIndex   -- Go runtime panic: unpack8Int64FuncByWidth index out of range
  | goPanicSliceBounds   -- Go runtime panic: slice bounds out of range
  | goPanicValuesIndex   -- Go runtime panic: dictionary value table index out of range
  deriving DecidableEq, Repr

/-- Two's complement interpretation of a natural number as a Go `int64`. -/
def toInt64 (n : Nat) : Int :=
  if n % 18446744073709551616 < 9223372036854775808 then
    ((n % 18446744073709551616 : Nat) : Int)
  else
    ((n % 18446744073709551616 : Nat) : Int) - 18446744073709551616

/-- Wrap-around of Go `int64` arithmetic on mathematical integers. -/
def i64 (z : Int) : Int :=
  (z + 9223372036854775808) % 18446744073709551616 - 9223372036854775808

/-- Two's complement interpretation of a natural number as a Go `int32`. -/
def toInt32 (n : Nat) : Int :=
  if n % 4294967296 < 2147483648 then
    ((n % 4294967296 : Nat) : Int)
  else
    ((n % 4294967296 : Nat) : Int) - 4294967296

/-- Wrap-around of Go `int32` arithmetic on mathematical integers. -/
def i32 (z : Int) : Int :=
  (z + 2147483648) % 4294967296 - 2147483648

/-- Modelled from the spec: core loop of the external unsigned varint
primitive (`varint(bytes) -> (value, bytesConsumed)`), which is not under
`src/`.  Reads base-128 little-endian groups, low 7 bits of each byte,
until a byte without the continuation bit; returns the accumulated value
and the number of bytes consumed, or `none` when the buffer ends inside
the number (the Go primitive signals this with `bytesConsumed <= 0`). -/
def varIntLoop : List Nat → Nat → Nat → Nat → Option (Nat × Nat)
  | [], _, _, _ => none
  | b :: bs, shift, acc, cnt =>
    if b < 128 then some (acc + b * 2 ^ shift, cnt + 1)
    else varIntLoop bs (shift + 7) (acc + (b - 128) * 2 ^ shift) (cnt + 1)

/-- Modelled from the spec: the raw unsigned varint parser. -/
def varIntRaw (bs : List Nat) : Option (Nat × Nat) :=
  varIntLoop bs 0 0 0

/-- Modelled from the spec: `varInt32`, the unsigned varint parser whose
result is stored into Go `int32` header fields; `none` stands for a
non-positive consumed count. -/
def varInt32 (bs : List Nat) : Option (Int × Nat) :=
  match varIntRaw bs with
  | none => none
  | some (v, n) => some (toInt32 v, n)

/-- Modelled from the spec: `zigZagVarInt64`, the zig-zag signed varint
parser (unsigned varint, then the zig-zag interleaving undone on the low
64 bits). -/
def zigZagVarInt64 (bs : List Nat) : Option (Int × Nat) :=
  match varIntRaw bs with
  | none => none
  | some (v, n) =>
    let u := v % 18446744073709551616
    some (if u % 2 = 0 then ((u / 2 : Nat) : Int) else -((u / 2 : Nat) : Int) - 1, n)

/-- Bit `k` of a little-endian packed byte span. -/
def spanBit (span : List Nat) (k : Nat) : Nat :=
  span.getD (k / 8) 0 / 2 ^ (k % 8) % 2

/-- Modelled from the spec: the external width-indexed bit unpacker
`unpack8(bytes, bitWidth) -> [8]int64`: eight values packed at `w` bits
each, bit-packed little-endian within the span. -/
def unpack8 (span : List Nat) (w : Nat) : List Int :=
  (List.range 8).map fun j =>
    toInt64 ((List.range w).foldr (fun t acc => spanBit span (j * w + t) * 2 ^ t + acc) 0)

/-- Go sub-slice `data[pos:]`; `none` models the slice-bounds panic for a
cursor outside `[0, len]`. -/
def sliceFrom (data : List Nat) (pos : Int) : Option (List Nat) :=
  if 0 ≤ pos ∧ pos ≤ (data.length : Int) then some (data.drop pos.toNat) else none

/-- Little-endian unsigned 64-bit read of (the first 8 bytes of) a span. -/
def leUint64 (bs : List Nat) : Nat :=
  (bs.take 8).foldr (fun b acc => b + 256 * acc) 0

/-- State of `int64PlainDecoder`: the buffer and the byte cursor. -/
structure PlainSt where
  data : List Nat
  pos : Nat
  deriving DecidableEq, Repr

/-- init of `int64PlainDecoder`. -/
def plainInit (data : List Nat) : PlainSt :=
  { data := data, pos := 0 }

/-- decodeInt64 of `int64PlainDecoder`: the per-slot loop.  The numeric
argument is `len(dst)`; the result carries the final decoder state, the
values written into `dst` (in order) and the error, mirroring the Go
code's in-place mutation plus error return. -/
def plainDecodeInt64 : PlainSt → Nat → PlainSt × List Int × Option Err
  | s, 0 => (s, [], none)
  | s, k + 1 =>
    if s.pos ≥ s.data.length then (s, [], some .endOfData)
    else if s.pos + 8 > s.data.length then (s, [], some .plainTruncated)
    else
      let v := toInt64 (leUint64 (s.data.drop s.pos))
      let r := plainDecodeInt64 { s with pos := s.pos + 8 } k
      (r.1, v :: r.2.1, r.2.2)

example : plainDecodeInt64 (plainInit [1,0,0,0,0,0,0,0]) 1 =
    ({ data := [1,0,0,0,0,0,0,0], pos := 8 }, [1], none) := by decide

example : zigZagVarInt64 [20] = some (10, 1) := by decide
example : zigZagVarInt64 [1] = some (-1, 1) := by decide
example : varInt32 [172, 2] = some (300, 2) := by decide

/-- State of `int64DictDecoder`: the materialized value table, the
`numValues` field of the embedded `dictDecoder` sub-state, and the
abstract state of the external run-length/bit-packed key decoder,
modelled as the sequence of raw table indices it would produce. -/
structure DictSt where
  numValues : Nat
  values : List Int
  keyStream : List Nat
  deriving DecidableEq, Repr

/-- Modelled from the spec: `dictDecoder.decodeKeys(n)` (the external
run-length/bit-packed hybrid key decoder, not under `src/`): it yields
`n` non-negative integer indices, fails when it cannot produce them, and
fails with `IndexOutOfRange` when a decoded key exceeds the value table
bound (`numValues`) rather than silently clamping. -/
def dictDecodeKeys (d : DictSt) (n : Nat) : Except Err (List Nat) :=
  let ks := d.keyStream.take n
  if ks.length < n then .error .keysTruncated
  else if ∀ k ∈ ks, k < d.numValues then .ok ks
  else .error .indexOutOfRange

/-- decodeInt64 of `int64DictDecoder`: fetch `len(dst)` keys from the key
decoder, propagate its error unchanged, then resolve each key against the
value table (`d.values[k]`, whose out-of-bounds access would be a Go
panic, modelled as `goPanicValuesIndex`). -/
def dictDecodeInt64 (d : DictSt) (n : Nat) : Except Err (List Int) :=
  match dictDecodeKeys d n with
  | .error e => .error e
  | .ok keys =>
    match keys.mapM (fun k => d.values.get? k) with
    | none => .error .goPanicValuesIndex
    | some vs => .ok vs

/-- initValues of `int64DictDecoder`: sets `numValues` to `count` and
materializes `count` values from the plain-encoded dictionary page
(the external `dictDecoder.initValues` decodes the table using the plain
int64 layout, per the spec). -/
def dictInitValues (dictData : List Nat) (count : Nat) (keyStream : List Nat) :
    Except Err DictSt :=
  match (plainDecodeInt64 (plainInit dictData) count).2.2 with
  | some e => .error e
  | none =>
    .ok { numValues := count,
          values := (plainDecodeInt64 (plainInit dictData) count).2.1,
          keyStream := keyStream }

/-- Shape of the dynamically typed destination passed to the dispatch
entry point `decodeInt64(d, dst)`: a `[]int64` of some length, a
`[]interface\x7b\x7d` of some length, or any other value. -/
inductive DynDst where
  | int64Slice (len : Nat)
  | ifaceSlice (len : Nat)
  | other
  deriving DecidableEq, Repr

/-- Dispatch entry point `decodeInt64(d, dst)` from `type_int64.go`.
The underlying decoder method is abstracted as the deterministic function
`dec` from a destination length to (values written, error).  For the
dynamically typed case the Go code allocates a zeroed temporary `[]int64`
of the same length, decodes into it, copies every element into the
destination (even when an error occurred) and returns the original error.
The result is the final contents of `dst` (as unboxed values) paired with
the returned error; `none` models the `panic("invalid argument")` on any
other destination shape. -/
def dispatchDecodeInt64 (dec : Nat → List Int × Option Err) :
    DynDst → Option (List Int × Option Err)
  | .int64Slice n => some ((dec n).1, (dec n).2)
  | .ifaceSlice n =>
    some ((((dec n).1 ++ List.replicate (n - (dec n).1.length) 0).take n), (dec n).2)
  | .other => none

/-- State of `int64DeltaBinaryPackedDecoder`.  The Go field `unpacker`
always equals `unpack8Int64FuncByWidth[miniBlockWidth]` (they are
assigned together), so it is represented by `miniBlockWidth` alone and
the unpack call applies `unpack8` at that width. -/
structure DeltaSt where
  data : List Nat
  blockSize : Int
  miniBlocks : Int
  miniBlockSize : Int
  numValues : Int
  minDelta : Int
  miniBlockWidths : List Nat
  pos : Int
  i : Int
  value : Int
  miniBlock : Int
  miniBlockWidth : Nat
  miniBlockPos : Int
  miniBlockValues : List Int
  deriving DecidableEq, Repr

/-- readPageHeader of `int64DeltaBinaryPackedDecoder`: block size,
miniblock count (with the `make` of the widths table), miniblock size
(Go integer division, a runtime panic when the miniblock count is zero),
total value count and zig-zag first value.  State mutations made before
a failing read are kept, mirroring the pointer-receiver mutation. -/
def readPageHeader (s : DeltaSt) : DeltaSt × Option Err :=
  match sliceFrom s.data s.pos with
  | none => (s, some .goPanicSliceBounds)
  | some rest =>
  match varInt32 rest with
  | none => (s, some .headerBlockSize)
  | some (bs, n1) =>
  let s1 : DeltaSt := { s with blockSize := bs, pos := s.pos + n1 }
  match sliceFrom s1.data s1.pos with
  | none => (s1, some .goPanicSliceBounds)
  | some rest1 =>
  match varInt32 rest1 with
  | none => (s1, some .headerMiniBlocks)
  | some (mb, n2) =>
  if mb < 0 then ({ s1 with miniBlocks := mb }, some .goPanicMakeNeg)
  else
  let s2 : DeltaSt := { s1 with miniBlocks := mb,
                                miniBlockWidths := List.replicate mb.toNat 0,
                                pos := s1.pos + n2 }
  if mb = 0 then (s2, some .goPanicDivZero)
  else
  let s3 : DeltaSt := { s2 with miniBlockSize := i32 (s2.blockSize.tdiv mb) }
  match sliceFrom s3.data s3.pos with
  | none => (s3, some .goPanicSliceBounds)
  | some rest2 =>
  match varInt32 rest2 with
  | none => (s3, some .headerNumValues)
  | some (nv, n3) =>
  let s4 : DeltaSt := { s3 with numValues := nv, pos := s3.pos + n3 }
  match sliceFrom s4.data s4.pos with
  | none => (s4, some .goPanicSliceBounds)
  | some rest3 =>
  match zigZagVarInt64 rest3 with
  | none => (s4, some .headerFirstValue)
  | some (fv, n4) =>
  ({ s4 with value := fv, pos := s4.pos + n4 }, none)

/-- readBlockHeader of `int64DeltaBinaryPackedDecoder`: zig-zag min
delta, then one raw byte per miniblock copied into the widths table
(an incomplete copy is an error and leaves the cursor before the
widths), then the miniblock counter is reset. -/
def readBlockHeader (s : DeltaSt) : DeltaSt × Option Err :=
  match sliceFrom s.data s.pos with
  | none => (s, some .goPanicSliceBounds)
  | some rest =>
  match zigZagVarInt64 rest with
  | none => (s, some .headerMinDelta)
  | some (md, n) =>
  let s1 : DeltaSt := { s with minDelta := md, pos := s.pos + n }
  match sliceFrom s1.data s1.pos with
  | none => (s1, some .goPanicSliceBounds)
  | some rest1 =>
  if min s1.miniBlockWidths.length rest1.length ≠ s1.miniBlockWidths.length then
    (s1, some .headerWidths)
  else
    ({ s1 with miniBlockWidths := rest1.take s1.miniBlockWidths.length,
               pos := s1.pos + min s1.miniBlockWidths.length rest1.length,
               miniBlock := 0 }, none)

/-- Body of the `d.i%8 == 0` branch of decodeInt64: possibly advance to
the next miniblock (reading a new block header when the current block's
miniblocks are exhausted), then bit-unpack the next group of eight raw
deltas and, if this group reaches the declared total, skip the tail
padding bytes of the miniblock. -/
def miniBlockSwitch (s : DeltaSt) : DeltaSt × Option Err :=
  match (if s.miniBlock ≥ s.miniBlocks then readBlockHeader s else (s, none)) with
  | (s0, some e) => (s0, some e)
  | (s0, none) =>
    if s0.miniBlock < 0 then (s0, some .goPanicWidthsIndex)
    else
      match s0.miniBlockWidths.get? s0.miniBlock.toNat with
      | none => (s0, some .goPanicWidthsIndex)
      | some wb =>
        if wb > 64 then ({ s0 with miniBlockWidth := wb }, some .goPanicUnpackIndex)
        else ({ s0 with miniBlockWidth := wb, miniBlockPos := 0,
                        miniBlock := s0.miniBlock + 1 }, none)

/-- The group read itself: bounds-checked 8-value bit unpack at the
current width, cursor advance, and the tail-padding skip when this group
reaches the declared total. -/
def groupLoadRead (s1 : DeltaSt) : DeltaSt × Option Err :=
  let w := s1.miniBlockWidth
  if s1.pos + (w : Int) > (s1.data.length : Int) then (s1, some .notEnoughData)
  else if s1.pos < 0 then (s1, some .goPanicSliceBounds)
  else
    let s2 : DeltaSt := { s1 with
      miniBlockValues := unpack8 ((s1.data.drop s1.pos.toNat).take w) w,
      miniBlockPos := s1.miniBlockPos + w,
      pos := s1.pos + w }
    if s2.i + 8 ≥ s2.numValues then
      ({ s2 with pos := s2.pos + (s2.miniBlockSize.tdiv 8 * w - s2.miniBlockPos) }, none)
    else (s2, none)

def groupLoad (s : DeltaSt) : DeltaSt × Option Err :=
  if s.miniBlockSize = 0 then (s, some .goPanicDivZero)
  else
  match (if s.i.tmod s.miniBlockSize = 0 then miniBlockSwitch s else (s, none)) with
  | (s1, some e) => (s1, some e)
  | (s1, none) => groupLoadRead s1

/-- One value-producing iteration's preparation: the group load runs
exactly when the value index is a multiple of 8. -/
def groupStep (s : DeltaSt) : DeltaSt × Option Err :=
  if s.i.tmod 8 = 0 then groupLoad s else (s, none)

/-- The mutation of the accumulator and counters after writing a value:
`d.value += d.miniBlockValues[d.i%8] + d.minDelta; d.i++`, with `int64`
wrap-around on the accumulator. -/
def advance (s : DeltaSt) : DeltaSt :=
  { s with value := i64 (s.value + s.miniBlockValues.getD (s.i.tmod 8).toNat 0 + s.minDelta),
           i := s.i + 1 }

/-- The main loop of decodeInt64 of `int64DeltaBinaryPackedDecoder`:
fills destination slots while the destination is not full and the
declared total is not exhausted; returns the final state, the values
written (in order) and the error, mirroring in-place mutation. -/
def decodeLoop : DeltaSt → Nat → DeltaSt × List Int × Option Err
  | s, 0 => (s, [], none)
  | s, k + 1 =>
    if s.i < s.numValues then
      match groupStep s with
      | (s1, some e) => (s1, [], some e)
      | (s1, none) =>
        let r := decodeLoop (advance s1) k
        (r.1, s1.value :: r.2.1, r.2.2)
    else (s, [], none)

/-- decodeInt64 of `int64DeltaBinaryPackedDecoder`: the loop, followed by
the `n == 0` check that turns an empty production into the
"no more data" error. -/
def DeltaSt.decodeInt64 (s : DeltaSt) (dstLen : Nat) : DeltaSt × List Int × Option Err :=
  match decodeLoop s dstLen with
  | (s1, vs, some e) => (s1, vs, some e)
  | (s1, vs, none) => if vs.length = 0 then (s1, vs, some .noMoreData) else (s1, vs, none)

/-- Zero value of the delta decoder struct before `init` runs. -/
def deltaZero (data : List Nat) : DeltaSt :=
  { data := data, blockSize := 0, miniBlocks := 0, miniBlockSize := 0, numValues := 0,
    minDelta := 0, miniBlockWidths := [], pos := 0, i := 0, value := 0, miniBlock := 0,
    miniBlockWidth := 0, miniBlockPos := 0, miniBlockValues := List.replicate 8 0 }

/-- init of `int64DeltaBinaryPackedDecoder`: stores the data, resets the
cursors and reads the page header and the first block header. -/
def deltaInit (data : List Nat) : DeltaSt × Option Err :=
  match readPageHeader (deltaZero data) with
  | (s1, some e) => (s1, some e)
  | (s1, none) => readBlockHeader s1

/-- Repeated decodeInt64 calls with the given destination lengths,
concatenating the produced values; stops at the first error. -/
def decodeChunks : DeltaSt → List Nat → DeltaSt × List Int × Option Err
  | s, [] => (s, [], none)
  | s, p :: ps =>
    match DeltaSt.decodeInt64 s p with
    | (t, vs, some e) => (t, vs, some e)
    | (t, vs, none) =>
      let r := decodeChunks t ps
      (r.1, vs ++ r.2.1, r.2.2)

example : (deltaInit [8, 1, 5, 20, 0, 0]).2 = none := by decide
example : ((deltaInit [8, 1, 5, 20, 0, 0]).1.decodeInt64 5).2.1 = [10, 10, 10, 10, 10] := by
  decide
example : ((deltaInit [8, 1, 5, 20, 0, 0]).1.decodeInt64 5).2.2 = none := by decide

/-! ### Basic facts about the varint primitives -/

theorem varIntLoop_bounds :
    ∀ (bs : List Nat) (shift acc cnt v n : Nat),
      varIntLoop bs shift acc cnt = some (v, n) → cnt < n ∧ n ≤ cnt + bs.length := by
  intro bs
  induction bs with
  | nil => intro shift acc cnt v n h; simp [varIntLoop] at h
  | cons b bs ih =>
    intro shift acc cnt v n h
    simp only [varIntLoop] at h
    split at h
    · simp only [Option.some.injEq, Prod.mk.injEq] at h
      obtain ⟨-, rfl⟩ := h
      simp only [List.length_cons]
      omega
    · have := ih (shift + 7) (acc + (b - 128) * 2 ^ shift) (cnt + 1) v n h
      simp only [List.length_cons]
      omega

theorem varInt32_bounds {bs : List Nat} {v : Int} {n : Nat}
    (h : varInt32 bs = some (v, n)) : 1 ≤ n ∧ n ≤ bs.length := by
  unfold varInt32 at h
  cases heq : varIntRaw bs with
  | none => rw [heq] at h; exact absurd h (by simp)
  | some p =>
    obtain ⟨v0, n0⟩ := p
    rw [heq] at h
    simp only [Option.some.injEq, Prod.mk.injEq] at h
    obtain ⟨-, rfl⟩ := h
    have := varIntLoop_bounds bs 0 0 0 v0 n0 heq
    omega

theorem zigZagVarInt64_bounds {bs : List Nat} {v : Int} {n : Nat}
    (h : zigZagVarInt64 bs = some (v, n)) : 1 ≤ n ∧ n ≤ bs.length := by
  unfold zigZagVarInt64 at h
  cases heq : varIntRaw bs with
  | none => rw [heq] at h; exact absurd h (by simp)
  | some p =>
    obtain ⟨v0, n0⟩ := p
    rw [heq] at h
    simp only [Option.some.injEq, Prod.mk.injEq] at h
    obtain ⟨-, rfl⟩ := h
    have := varIntLoop_bounds bs 0 0 0 v0 n0 heq
    omega

theorem sliceFrom_some {data : List Nat} {pos : Int} {rest : List Nat}
    (h : sliceFrom data pos = some rest) :
    0 ≤ pos ∧ pos ≤ (data.length : Int) ∧ rest.length = data.length - pos.toNat := by
  unfold sliceFrom at h
  split at h
  · rename_i hc
    simp only [Option.some.injEq] at h
    subst h
    exact ⟨hc.1, hc.2, by simp⟩
  · exact absurd h (by simp)

/-! ### Frame and cursor facts for the delta decoder's header readers -/

theorem readBlockHeader_spec (s : DeltaSt) :
    ((readBlockHeader s).1.data = s.data ∧
     (readBlockHeader s).1.numValues = s.numValues ∧
     (readBlockHeader s).1.i = s.i ∧
     (readBlockHeader s).1.value = s.value ∧
     (readBlockHeader s).1.miniBlocks = s.miniBlocks ∧
     (readBlockHeader s).1.miniBlockSize = s.miniBlockSize ∧
     (readBlockHeader s).1.miniBlockWidth = s.miniBlockWidth ∧
     (readBlockHeader s).1.miniBlockPos = s.miniBlockPos ∧
     (readBlockHeader s).1.miniBlockValues = s.miniBlockValues) ∧
    (0 ≤ s.pos → s.pos ≤ (s.data.length : Int) →
      0 ≤ (readBlockHeader s).1.pos ∧ (readBlockHeader s).1.pos ≤ (s.data.length : Int)) := by
  rcases hr : readBlockHeader s with ⟨t, e⟩
  unfold readBlockHeader at hr
  cases h1 : sliceFrom s.data s.pos <;> rw [h1] at hr <;> dsimp only at hr
  case none =>
    cases hr
    exact ⟨by simp, fun h0 hl => ⟨h0, hl⟩⟩
  case some rest =>
    cases h2 : zigZagVarInt64 rest <;> rw [h2] at hr <;> dsimp only at hr
    case none =>
      cases hr
      exact ⟨by simp, fun h0 hl => ⟨h0, hl⟩⟩
    case some p =>
      obtain ⟨md, n⟩ := p
      obtain ⟨hp0, hpl, hrl⟩ := sliceFrom_some h1
      obtain ⟨hn1, hn2⟩ := zigZagVarInt64_bounds h2
      dsimp only at hr
      cases h3 : sliceFrom s.data (s.pos + (n : Int)) <;> rw [h3] at hr <;> dsimp only at hr
      case none =>
        cases hr
        exact ⟨by simp, fun h0 hl => by dsimp only; constructor <;> omega⟩
      case some rest1 =>
        obtain ⟨-, -, hrl1⟩ := sliceFrom_some h3
        by_cases hc : min s.miniBlockWidths.length rest1.length = s.miniBlockWidths.length
        · rw [if_neg (not_not_intro hc)] at hr
          cases hr
          exact ⟨by simp, fun h0 hl => by dsimp only; constructor <;> omega⟩
        · rw [if_pos hc] at hr
          cases hr
          exact ⟨by simp, fun h0 hl => by dsimp only; constructor <;> omega⟩

theorem readPageHeader_spec (s : DeltaSt) :
    ((readPageHeader s).1.data = s.data ∧
     (readPageHeader s).1.i = s.i ∧
     (readPageHeader s).1.miniBlock = s.miniBlock ∧
     (readPageHeader s).1.miniBlockWidth = s.miniBlockWidth ∧
     (readPageHeader s).1.miniBlockPos = s.miniBlockPos ∧
     (readPageHeader s).1.miniBlockValues = s.miniBlockValues) ∧
    (0 ≤ s.pos → s.pos ≤ (s.data.length : Int) →
      0 ≤ (readPageHeader s).1.pos ∧ (readPageHeader s).1.pos ≤ (s.data.length : Int)) := by
  rcases hr : readPageHeader s with ⟨t, e⟩
  unfold readPageHeader at hr
  cases h1 : sliceFrom s.data s.pos <;> rw [h1] at hr <;> dsimp only at hr
  case none =>
    cases hr
    exact ⟨by simp, fun h0 hl => ⟨h0, hl⟩⟩
  case some rest =>
    cases h2 : varInt32 rest <;> rw [h2] at hr <;> dsimp only at hr
    case none =>
      cases hr
      exact ⟨by simp, fun h0 hl => ⟨h0, hl⟩⟩
    case some p =>
      obtain ⟨bs, n1⟩ := p
      obtain ⟨hp0, hpl, hrl⟩ := sliceFrom_some h1
      obtain ⟨hn1a, hn1b⟩ := varInt32_bounds h2
      dsimp only at hr
      cases h3 : sliceFrom s.data (s.pos + (n1 : Int)) <;> rw [h3] at hr <;> dsimp only at hr
      case none =>
        cases hr
        exact ⟨by simp, fun h0 hl => by dsimp only; constructor <;> omega⟩
      case some rest1 =>
        obtain ⟨-, -, hrl1⟩ := sliceFrom_some h3
        cases h4 : varInt32 rest1 <;> rw [h4] at hr <;> dsimp only at hr
        case none =>
          cases hr
          exact ⟨by simp, fun h0 hl => by dsimp only; constructor <;> omega⟩
        case some q =>
          obtain ⟨mb, n2⟩ := q
          obtain ⟨hn2a, hn2b⟩ := varInt32_bounds h4
          dsimp only at hr
          by_cases hmbneg : mb < 0
          · rw [if_pos hmbneg] at hr
            cases hr
            exact ⟨by simp, fun h0 hl => by dsimp only; constructor <;> omega⟩
          · rw [if_neg hmbneg] at hr
            by_cases hmb0 : mb = 0
            · rw [if_pos hmb0] at hr
              cases hr
              exact ⟨by simp, fun h0 hl => by dsimp only; constructor <;> omega⟩
            · rw [if_neg hmb0] at hr
              try dsimp only at hr
              cases h5 : sliceFrom s.data (s.pos + (n1 : Int) + (n2 : Int)) <;>
                rw [h5] at hr <;> dsimp only at hr
              next =>
                cases hr
                exact ⟨by simp, fun h0 hl => by dsimp only; constructor <;> omega⟩
              next rest2 =>
                obtain ⟨-, -, hrl2⟩ := sliceFrom_some h5
                cases h6 : varInt32 rest2 <;> rw [h6] at hr <;> dsimp only at hr
                next =>
                  cases hr
                  exact ⟨by simp, fun h0 hl => by dsimp only; constructor <;> omega⟩
                next r =>
                  obtain ⟨nv, n3⟩ := r
                  obtain ⟨hn3a, hn3b⟩ := varInt32_bounds h6
                  dsimp only at hr
                  cases h7 : sliceFrom s.data (s.pos + (n1 : Int) + (n2 : Int) + (n3 : Int)) <;>
                    rw [h7] at hr <;> dsimp only at hr
                  next =>
                    cases hr
                    exact ⟨by simp, fun h0 hl => by dsimp only; constructor <;> omega⟩
                  next rest3 =>
                    obtain ⟨-, -, hrl3⟩ := sliceFrom_some h7
                    cases h8 : zigZagVarInt64 rest3 <;> rw [h8] at hr <;> dsimp only at hr
                    next =>
                      cases hr
                      exact ⟨by simp, fun h0 hl => by dsimp only; constructor <;> omega⟩
                    next w =>
                      obtain ⟨fv, n4⟩ := w
                      obtain ⟨hn4a, hn4b⟩ := zigZagVarInt64_bounds h8
                      cases hr
                      exact ⟨by simp, fun h0 hl => by dsimp only; constructor <;> omega⟩

theorem readBlockHeader_err (s : DeltaSt) :
    (readBlockHeader s).2 = none ∨ (readBlockHeader s).2 = some .goPanicSliceBounds ∨
    (readBlockHeader s).2 = some .headerMinDelta ∨ (readBlockHeader s).2 = some .headerWidths := by
  unfold readBlockHeader
  repeat' (first | split | dsimp only)
  all_goals simp

theorem miniBlockSwitch_spec (s : DeltaSt) :
    ((miniBlockSwitch s).1.data = s.data ∧
     (miniBlockSwitch s).1.numValues = s.numValues ∧
     (miniBlockSwitch s).1.i = s.i ∧
     (miniBlockSwitch s).1.value = s.value ∧
     (miniBlockSwitch s).1.miniBlocks = s.miniBlocks ∧
     (miniBlockSwitch s).1.miniBlockSize = s.miniBlockSize) ∧
    (miniBlockSwitch s).2 ≠ some Err.noMoreData ∧
    (0 ≤ s.pos → s.pos ≤ (s.data.length : Int) →
      0 ≤ (miniBlockSwitch s).1.pos ∧ (miniBlockSwitch s).1.pos ≤ (s.data.length : Int)) := by
  rcases hr : miniBlockSwitch s with ⟨t, e⟩
  unfold miniBlockSwitch at hr
  by_cases hge : s.miniBlock ≥ s.miniBlocks
  · rw [if_pos hge] at hr
    obtain ⟨hfr, hpos⟩ := readBlockHeader_spec s
    have herr := readBlockHeader_err s
    rcases hb : readBlockHeader s with ⟨s0, e0⟩
    rw [hb] at hr hfr hpos herr
    dsimp only at hr hfr hpos herr
    obtain ⟨hd, hnv, hi, hv, hmb, hms, hmw, hmp, hmv⟩ := hfr
    cases e0 with
    | some e1 =>
      dsimp only at hr
      cases hr
      refine ⟨⟨hd, hnv, hi, hv, hmb, hms⟩, ?_, fun h0 hl => hpos h0 hl⟩
      simp only [ne_eq, Option.some.injEq]
      rcases herr with h | h | h | h <;> simp_all
    | none =>
      dsimp only at hr
      by_cases hneg : s0.miniBlock < 0
      · rw [if_pos hneg] at hr
        cases hr
        exact ⟨⟨hd, hnv, hi, hv, hmb, hms⟩, by simp, fun h0 hl => hpos h0 hl⟩
      · rw [if_neg hneg] at hr
        cases hw : s0.miniBlockWidths.get? s0.miniBlock.toNat <;> rw [hw] at hr <;>
          dsimp only at hr
        next =>
          cases hr
          exact ⟨⟨hd, hnv, hi, hv, hmb, hms⟩, by simp, fun h0 hl => hpos h0 hl⟩
        next wb =>
          by_cases hwb : wb > 64
          · rw [if_pos hwb] at hr
            cases hr
            exact ⟨⟨hd, hnv, hi, hv, hmb, hms⟩, by simp,
              fun h0 hl => by simpa using hpos h0 hl⟩
          · rw [if_neg hwb] at hr
            cases hr
            exact ⟨⟨hd, hnv, hi, hv, hmb, hms⟩, by simp,
              fun h0 hl => by simpa using hpos h0 hl⟩
  · rw [if_neg hge] at hr
    dsimp only at hr
    by_cases hneg : s.miniBlock < 0
    · rw [if_pos hneg] at hr
      cases hr
      exact ⟨by simp, by simp, fun h0 hl => ⟨h0, hl⟩⟩
    · rw [if_neg hneg] at hr
      cases hw : s.miniBlockWidths.get? s.miniBlock.toNat <;> rw [hw] at hr <;>
        dsimp only at hr
      next =>
        cases hr
        exact ⟨by simp, by simp, fun h0 hl => ⟨h0, hl⟩⟩
      next wb =>
        by_cases hwb : wb > 64
        · rw [if_pos hwb] at hr
          cases hr
          exact ⟨by simp, by simp, fun h0 hl => ⟨h0, hl⟩⟩
        · rw [if_neg hwb] at hr
          cases hr
          exact ⟨by simp, by simp, fun h0 hl => ⟨h0, hl⟩⟩

theorem groupLoadRead_spec (s : DeltaSt) :
    ((groupLoadRead s).1.data = s.data ∧
     (groupLoadRead s).1.numValues = s.numValues ∧
     (groupLoadRead s).1.i = s.i ∧
     (groupLoadRead s).1.value = s.value ∧
     (groupLoadRead s).1.miniBlocks = s.miniBlocks ∧
     (groupLoadRead s).1.miniBlockSize = s.miniBlockSize) ∧
    (groupLoadRead s).2 ≠ some Err.noMoreData ∧
    (0 ≤ s.pos → s.pos ≤ (s.data.length : Int) →
      (0 ≤ (groupLoadRead s).1.pos ∧ (groupLoadRead s).1.pos ≤ (s.data.length : Int)) ∨
        ((groupLoadRead s).2 = none ∧ s.numValues ≤ s.i + 8)) := by
  rcases hr : groupLoadRead s with ⟨t, e⟩
  unfold groupLoadRead at hr
  try dsimp only at hr
  by_cases h1 : s.pos + (s.miniBlockWidth : Int) > (s.data.length : Int)
  · rw [if_pos h1] at hr
    cases hr
    exact ⟨by simp, by simp, fun h0 hl => Or.inl ⟨h0, hl⟩⟩
  · rw [if_neg h1] at hr
    by_cases h2 : s.pos < 0
    · rw [if_pos h2] at hr
      cases hr
      exact ⟨by simp, by simp, fun h0 hl => Or.inl ⟨h0, hl⟩⟩
    · rw [if_neg h2] at hr
      try dsimp only at hr
      by_cases h3 : s.i + 8 ≥ s.numValues
      · rw [if_pos h3] at hr
        cases hr
        exact ⟨by simp, by simp, fun h0 hl => Or.inr ⟨rfl, h3⟩⟩
      · rw [if_neg h3] at hr
        cases hr
        exact ⟨by simp, by simp,
          fun h0 hl => Or.inl (by dsimp only; constructor <;> omega)⟩

theorem groupLoad_spec (s : DeltaSt) :
    ((groupLoad s).1.data = s.data ∧
     (groupLoad s).1.numValues = s.numValues ∧
     (groupLoad s).1.i = s.i ∧
     (groupLoad s).1.value = s.value ∧
     (groupLoad s).1.miniBlocks = s.miniBlocks ∧
     (groupLoad s).1.miniBlockSize = s.miniBlockSize) ∧
    (groupLoad s).2 ≠ some Err.noMoreData ∧
    (0 ≤ s.pos → s.pos ≤ (s.data.length : Int) →
      (0 ≤ (groupLoad s).1.pos ∧ (groupLoad s).1.pos ≤ (s.data.length : Int)) ∨
        ((groupLoad s).2 = none ∧ s.numValues ≤ s.i + 8)) := by
  rcases hr : groupLoad s with ⟨t, e⟩
  unfold groupLoad at hr
  by_cases hmbs : s.miniBlockSize = 0
  · rw [if_pos hmbs] at hr
    cases hr
    exact ⟨by simp, by simp, fun h0 hl => Or.inl ⟨h0, hl⟩⟩
  · rw [if_neg hmbs] at hr
    by_cases htm : s.i.tmod s.miniBlockSize = 0
    · rw [if_pos htm] at hr
      obtain ⟨hfr, herr, hpos⟩ := miniBlockSwitch_spec s
      rcases hb : miniBlockSwitch s with ⟨s1, e1⟩
      rw [hb] at hr hfr herr hpos
      dsimp only at hr hfr herr hpos
      obtain ⟨hd, hnv, hi, hv, hmb, hms⟩ := hfr
      cases e1 with
      | some e2 =>
        dsimp only at hr
        cases hr
        exact ⟨⟨hd, hnv, hi, hv, hmb, hms⟩, herr, fun h0 hl => Or.inl (hpos h0 hl)⟩
      | none =>
        dsimp only at hr
        obtain ⟨gfr, gerr, gpos⟩ := groupLoadRead_spec s1
        rw [hr] at gfr gerr gpos
        dsimp only at gfr gerr gpos
        refine ⟨?_, gerr, ?_⟩
        · rw [gfr.1, gfr.2.1, gfr.2.2.1, gfr.2.2.2.1, gfr.2.2.2.2.1, gfr.2.2.2.2.2]
          exact ⟨hd, hnv, hi, hv, hmb, hms⟩
        · intro h0 hl
          obtain ⟨g0, gl⟩ := hpos h0 hl
          rcases gpos g0 (by rw [hd]; exact gl) with hin | hskip
          · exact Or.inl (by rw [hd] at hin; exact hin)
          · exact Or.inr ⟨hskip.1, by rw [hnv, hi] at hskip; exact hskip.2⟩
    · rw [if_neg htm] at hr
      dsimp only at hr
      obtain ⟨gfr, gerr, gpos⟩ := groupLoadRead_spec s
      rw [hr] at gfr gerr gpos
      exact ⟨gfr, gerr, gpos⟩

theorem groupStep_spec (s : DeltaSt) :
    ((groupStep s).1.data = s.data ∧
     (groupStep s).1.numValues = s.numValues ∧
     (groupStep s).1.i = s.i ∧
     (groupStep s).1.value = s.value ∧
     (groupStep s).1.miniBlocks = s.miniBlocks ∧
     (groupStep s).1.miniBlockSize = s.miniBlockSize) ∧
    (groupStep s).2 ≠ some Err.noMoreData ∧
    (0 ≤ s.pos → s.pos ≤ (s.data.length : Int) →
      (0 ≤ (groupStep s).1.pos ∧ (groupStep s).1.pos ≤ (s.data.length : Int)) ∨
        ((groupStep s).2 = none ∧ s.numValues ≤ s.i + 8)) := by
  unfold groupStep
  by_cases h : s.i.tmod 8 = 0
  · rw [if_pos h]
    exact groupLoad_spec s
  · rw [if_neg h]
    exact ⟨by simp, by simp, fun h0 hl => Or.inl ⟨h0, hl⟩⟩

/-! ### Loop-level lemmas for the delta decoder -/

/-- No 8-aligned value index remains before the declared total: the
decoder is inside its final group of eight, so no further group load
(and hence no further buffer read or cursor movement) can occur. -/
def NoMoreLoads (s : DeltaSt) : Prop :=
  ∀ j : Int, s.i ≤ j → j < s.numValues → ¬ j.tmod 8 = 0

/-- The cursor invariant of the delta decoder: the value counter is
non-negative, and either the cursor is inside the buffer or the decoder
is inside its final group of eight (after the tail-padding skip), in
which case the cursor never moves again. -/
def DeltaInv (s : DeltaSt) : Prop :=
  0 ≤ s.i ∧ ((0 ≤ s.pos ∧ s.pos ≤ (s.data.length : Int)) ∨ NoMoreLoads s)

theorem tmod8_of_nonneg (a : Int) (h : 0 ≤ a) : a.tmod 8 = a % 8 :=
  Int.tmod_eq_emod h (by norm_num)

theorem decodeLoop_exhausted (s : DeltaSt) (k : Nat) (h : ¬ s.i < s.numValues) :
    decodeLoop s k = (s, [], none) := by
  cases k <;> simp [decodeLoop, h]

theorem advance_fields (s : DeltaSt) :
    (advance s).data = s.data ∧ (advance s).numValues = s.numValues ∧
    (advance s).miniBlockSize = s.miniBlockSize ∧ (advance s).pos = s.pos ∧
    (advance s).i = s.i + 1 := by
  simp [advance]

theorem decodeLoop_count :
    ∀ (k : Nat) (s : DeltaSt),
      (decodeLoop s k).1.data = s.data ∧
      (decodeLoop s k).1.numValues = s.numValues ∧
      (decodeLoop s k).1.i = s.i + (decodeLoop s k).2.1.length ∧
      (decodeLoop s k).1.i ≤ max s.i s.numValues := by
  intro k
  induction k with
  | zero => intro s; simp [decodeLoop]
  | succ k ih =>
    intro s
    rcases hr : decodeLoop s (k + 1) with ⟨t, vs, e⟩
    rw [show decodeLoop s (k + 1) =
        (if s.i < s.numValues then
          match groupStep s with
          | (s1, some e) => (s1, [], some e)
          | (s1, none) =>
            let r := decodeLoop (advance s1) k
            (r.1, s1.value :: r.2.1, r.2.2)
        else (s, [], none)) from rfl] at hr
    by_cases hlt : s.i < s.numValues
    · rw [if_pos hlt] at hr
      obtain ⟨⟨hd, hnv, hi, hv, hmb, hms⟩, herr, hpos⟩ := groupStep_spec s
      rcases hg : groupStep s with ⟨s1, e1⟩
      rw [hg] at hr hd hnv hi hv hmb hms
      dsimp only at hd hnv hi hv hmb hms
      cases e1 with
      | some e2 =>
        dsimp only at hr
        cases hr
        refine ⟨hd, hnv, by simpa using hi, ?_⟩
        rw [hi]
        exact le_max_left _ _
      | none =>
        dsimp only at hr
        obtain ⟨ihd, ihnv, ihi, ihmax⟩ := ih (advance s1)
        obtain ⟨ad, anv, ams, apos, ai⟩ := advance_fields s1
        cases hr
        refine ⟨by rw [ihd, ad, hd], by rw [ihnv, anv, hnv], ?_, ?_⟩
        · rw [ihi, ai, hi]
          simp only [List.length_cons]
          omega
        · dsimp only
          rw [ai, hi, anv, hnv] at ihmax
          omega
    · rw [if_neg hlt] at hr
      cases hr
      refine ⟨rfl, rfl, by simp, le_max_left _ _⟩

theorem decodeLoop_len_of_ok :
    ∀ (k : Nat) (s t : DeltaSt) (vs : List Int),
      decodeLoop s k = (t, vs, none) →
      vs.length = min k (s.numValues - s.i).toNat := by
  intro k
  induction k with
  | zero =>
    intro s t vs h
    simp only [decodeLoop, Prod.mk.injEq] at h
    obtain ⟨-, rfl, -⟩ := h
    simp
  | succ k ih =>
    intro s t vs h
    rw [show decodeLoop s (k + 1) =
        (if s.i < s.numValues then
          match groupStep s with
          | (s1, some e) => (s1, [], some e)
          | (s1, none) =>
            let r := decodeLoop (advance s1) k
            (r.1, s1.value :: r.2.1, r.2.2)
        else (s, [], none)) from rfl] at h
    by_cases hlt : s.i < s.numValues
    · rw [if_pos hlt] at h
      obtain ⟨⟨hd, hnv, hi, hv, hmb, hms⟩, herr, hpos⟩ := groupStep_spec s
      rcases hg : groupStep s with ⟨s1, e1⟩
      rw [hg] at h hd hnv hi hv hmb hms
      dsimp only at hd hnv hi hv hmb hms
      cases e1 with
      | some e2 => dsimp only at h; cases h
      | none =>
        dsimp only at h
        rcases hrec : decodeLoop (advance s1) k with ⟨t2, vs2, e2⟩
        rw [hrec] at h
        dsimp only at h
        obtain ⟨rfl, rfl, he⟩ := by
          simpa using h
        have := ih (advance s1) t2 vs2 (by rw [hrec, ← he])
        obtain ⟨ad, anv, ams, apos, ai⟩ := advance_fields s1
        rw [ai, anv, hi, hnv] at this
        simp only [List.length_cons, this]
        omega
    · rw [if_neg hlt] at h
      obtain ⟨-, rfl, -⟩ : s = t ∧ ([] : List Int) = vs ∧ (none : Option Err) = none := by
        simpa using h
      simp only [List.length_nil]
      omega

theorem decodeLoop_append :
    ∀ (a : Nat) (s u : DeltaSt) (vs1 : List Int),
      decodeLoop s a = (u, vs1, none) → ∀ b : Nat,
      decodeLoop s (a + b) =
        ((decodeLoop u b).1, vs1 ++ (decodeLoop u b).2.1, (decodeLoop u b).2.2) := by
  intro a
  induction a with
  | zero =>
    intro s u vs1 h b
    simp only [decodeLoop, Prod.mk.injEq] at h
    obtain ⟨rfl, rfl, -⟩ := h
    simp [Nat.zero_add]
  | succ a ih =>
    intro s u vs1 h b
    have hone : ∀ (w : DeltaSt) (m : Nat), decodeLoop w (m + 1) =
        (if w.i < w.numValues then
          match groupStep w with
          | (s1, some e) => (s1, [], some e)
          | (s1, none) =>
            let r := decodeLoop (advance s1) m
            (r.1, s1.value :: r.2.1, r.2.2)
        else (w, [], none)) := fun w m => rfl
    have harith : a + 1 + b = (a + b) + 1 := by omega
    rw [harith, hone]
    rw [hone] at h
    by_cases hlt : s.i < s.numValues
    · rw [if_pos hlt] at h ⊢
      rcases hg : groupStep s with ⟨s1, e1⟩
      rw [hg] at h
      cases e1 with
      | some e2 => dsimp only at h; cases h
      | none =>
        dsimp only at h ⊢
        rcases hrec : decodeLoop (advance s1) a with ⟨u2, vs2, e2⟩
        rw [hrec] at h
        dsimp only at h
        obtain ⟨rfl, hv, he⟩ := by simpa using h
        cases e2 with
        | some e3 => exact absurd he.symm (by simp)
        | none =>
          rw [ih (advance s1) u2 vs2 hrec b]
          dsimp only
          rw [← hv]
          simp
    · rw [if_neg hlt] at h
      obtain ⟨rfl, rfl, -⟩ : s = u ∧ ([] : List Int) = vs1 ∧ (none : Option Err) = none := by
        simpa using h
      rw [if_neg hlt, decodeLoop_exhausted s b hlt]
      simp

theorem decodeLoop_split :
    ∀ (a b : Nat) (s t : DeltaSt) (vs : List Int),
      decodeLoop s (a + b) = (t, vs, none) →
      ∃ u vs1 vs2, decodeLoop s a = (u, vs1, none) ∧ decodeLoop u b = (t, vs2, none) ∧
        vs = vs1 ++ vs2 := by
  intro a
  induction a with
  | zero =>
    intro b s t vs h
    exact ⟨s, [], vs, by simp [decodeLoop], by rw [← h]; congr 1; omega, by simp⟩
  | succ a ih =>
    intro b s t vs h
    have hone : ∀ (w : DeltaSt) (m : Nat), decodeLoop w (m + 1) =
        (if w.i < w.numValues then
          match groupStep w with
          | (s1, some e) => (s1, [], some e)
          | (s1, none) =>
            let r := decodeLoop (advance s1) m
            (r.1, s1.value :: r.2.1, r.2.2)
        else (w, [], none)) := fun w m => rfl
    have harith : a + 1 + b = (a + b) + 1 := by omega
    rw [harith, hone] at h
    by_cases hlt : s.i < s.numValues
    · rw [if_pos hlt] at h
      rcases hg : groupStep s with ⟨s1, e1⟩
      rw [hg] at h
      cases e1 with
      | some e2 => dsimp only at h; cases h
      | none =>
        dsimp only at h
        rcases hrec : decodeLoop (advance s1) (a + b) with ⟨t2, vs2, e2⟩
        rw [hrec] at h
        dsimp only at h
        obtain ⟨rfl, hv, he⟩ := by simpa using h
        cases e2 with
        | some e3 => exact absurd he.symm (by simp)
        | none =>
          obtain ⟨u, w1, w2, hu1, hu2, hw⟩ := ih b (advance s1) t2 vs2 hrec
          refine ⟨u, s1.value :: w1, w2, ?_, hu2, by rw [← hv, hw]; simp⟩
          rw [hone, if_pos hlt, hg]
          dsimp only
          rw [hu1]
    · rw [if_neg hlt] at h
      obtain ⟨rfl, rfl, -⟩ : s = t ∧ ([] : List Int) = vs ∧ (none : Option Err) = none := by
        simpa using h
      exact ⟨s, [], [], decodeLoop_exhausted s (a + 1) hlt, decodeLoop_exhausted s b hlt,
        by simp⟩

theorem decodeLoop_no_noMoreData :
    ∀ (k : Nat) (s : DeltaSt), (decodeLoop s k).2.2 ≠ some Err.noMoreData := by
  intro k
  induction k with
  | zero => intro s; simp [decodeLoop]
  | succ k ih =>
    intro s
    rw [show decodeLoop s (k + 1) =
        (if s.i < s.numValues then
          match groupStep s with
          | (s1, some e) => (s1, [], some e)
          | (s1, none) =>
            let r := decodeLoop (advance s1) k
            (r.1, s1.value :: r.2.1, r.2.2)
        else (s, [], none)) from rfl]
    by_cases hlt : s.i < s.numValues
    · rw [if_pos hlt]
      obtain ⟨hfr, herr, hpos⟩ := groupStep_spec s
      rcases hg : groupStep s with ⟨s1, e1⟩
      rw [hg] at herr
      cases e1 with
      | some e2 => simpa using herr
      | none => dsimp only; exact ih (advance s1)
    · rw [if_neg hlt]
      simp

theorem decodeLoop_first_value :
    ∀ (k : Nat) (s t : DeltaSt) (v : Int) (vs : List Int) (e : Option Err),
      decodeLoop s k = (t, v :: vs, e) → v = s.value := by
  intro k s t v vs e h
  cases k with
  | zero => simp [decodeLoop] at h
  | succ k =>
    rw [show decodeLoop s (k + 1) =
        (if s.i < s.numValues then
          match groupStep s with
          | (s1, some e) => (s1, [], some e)
          | (s1, none) =>
            let r := decodeLoop (advance s1) k
            (r.1, s1.value :: r.2.1, r.2.2)
        else (s, [], none)) from rfl] at h
    by_cases hlt : s.i < s.numValues
    · rw [if_pos hlt] at h
      obtain ⟨⟨hd, hnv, hi, hv, hmb, hms⟩, -, -⟩ := groupStep_spec s
      rcases hg : groupStep s with ⟨s1, e1⟩
      rw [hg] at h hv
      cases e1 with
      | some e2 => dsimp only at h; simp at h
      | none =>
        dsimp only at h hv
        have h21 : s1.value :: (decodeLoop (advance s1) k).2.1 = v :: vs := by
          have := congrArg (fun p => p.2.1) h
          simpa using this
        have hhead : s1.value = v := by
          injection h21
        rw [← hhead]
        exact hv
    · rw [if_neg hlt] at h
      simp at h

theorem decodeLoop_frozen :
    ∀ (k : Nat) (s : DeltaSt), 0 ≤ s.i → NoMoreLoads s →
      (decodeLoop s k).1.pos = s.pos ∧ (decodeLoop s k).2.2 = none ∧
      (decodeLoop s k).1.data = s.data ∧ 0 ≤ (decodeLoop s k).1.i ∧
      NoMoreLoads (decodeLoop s k).1 := by
  intro k
  induction k with
  | zero => intro s h0 hn; simpa [decodeLoop] using ⟨h0, hn⟩
  | succ k ih =>
    intro s h0 hn
    rw [show decodeLoop s (k + 1) =
        (if s.i < s.numValues then
          match groupStep s with
          | (s1, some e) => (s1, [], some e)
          | (s1, none) =>
            let r := decodeLoop (advance s1) k
            (r.1, s1.value :: r.2.1, r.2.2)
        else (s, [], none)) from rfl]
    by_cases hlt : s.i < s.numValues
    · rw [if_pos hlt]
      have htm : ¬ s.i.tmod 8 = 0 := hn s.i le_rfl hlt
      have hgs : groupStep s = (s, none) := by
        unfold groupStep
        rw [if_neg htm]
      rw [hgs]
      dsimp only
      have hadv : 0 ≤ (advance s).i := by
        rw [(advance_fields s).2.2.2.2]; omega
      have hnml : NoMoreLoads (advance s) := by
        intro j hj1 hj2
        refine hn j ?_ ?_
        · rw [(advance_fields s).2.2.2.2] at hj1; omega
        · rw [(advance_fields s).2.1] at hj2; exact hj2
      obtain ⟨p1, p2, p3, p4, p5⟩ := ih (advance s) hadv hnml
      exact ⟨by rw [p1, (advance_fields s).2.2.2.1], p2,
        by rw [p3, (advance_fields s).1], p4, p5⟩
    · rw [if_neg hlt]
      exact ⟨rfl, rfl, rfl, h0, hn⟩

theorem decodeLoop_inv :
    ∀ (k : Nat) (s : DeltaSt), DeltaInv s → DeltaInv (decodeLoop s k).1 := by
  intro k
  induction k with
  | zero => intro s h; simpa [decodeLoop] using h
  | succ k ih =>
    intro s h
    obtain ⟨h0, hdisj⟩ := h
    rcases hdisj with hbnd | hnml
    case inr =>
      obtain ⟨-, -, -, p4, p5⟩ := decodeLoop_frozen (k + 1) s h0 hnml
      exact ⟨p4, Or.inr p5⟩
    case inl =>
      rw [show decodeLoop s (k + 1) =
          (if s.i < s.numValues then
            match groupStep s with
            | (s1, some e) => (s1, [], some e)
            | (s1, none) =>
              let r := decodeLoop (advance s1) k
              (r.1, s1.value :: r.2.1, r.2.2)
          else (s, [], none)) from rfl]
      by_cases hlt : s.i < s.numValues
      · rw [if_pos hlt]
        obtain ⟨⟨hd, hnv, hi, hv, hmb, hms⟩, herr, hpos⟩ := groupStep_spec s
        rcases hg : groupStep s with ⟨s1, e1⟩
        rw [hg] at hd hnv hi hv hmb hms hpos herr
        dsimp only at hd hnv hi hv hmb hms hpos herr
        cases e1 with
        | some e2 =>
          dsimp only
          rcases hpos hbnd.1 hbnd.2 with hin | hskip
          · exact ⟨by rw [hi]; exact h0, Or.inl ⟨hin.1, by rw [hd]; exact hin.2⟩⟩
          · exact absurd hskip.1 (by simp)
        | none =>
          dsimp only
          rcases hpos hbnd.1 hbnd.2 with hin | hskip
          · refine ih (advance s1) ⟨?_, Or.inl ?_⟩
            · rw [(advance_fields s1).2.2.2.2, hi]; omega
            · rw [(advance_fields s1).2.2.2.1, (advance_fields s1).1, hd]
              exact hin
          · by_cases htm : s.i.tmod 8 = 0
            · refine ih (advance s1) ⟨?_, Or.inr ?_⟩
              · rw [(advance_fields s1).2.2.2.2, hi]; omega
              · intro j hj1 hj2
                rw [(advance_fields s1).2.2.2.2, hi] at hj1
                rw [(advance_fields s1).2.1, hnv] at hj2
                have hj0 : (0 : Int) ≤ j := by omega
                rw [tmod8_of_nonneg j hj0]
                rw [tmod8_of_nonneg s.i h0] at htm
                omega
            · have hgs : groupStep s = (s, none) := by
                unfold groupStep
                rw [if_neg htm]
              rw [hgs] at hg
              obtain ⟨rfl, -⟩ : s1 = s ∧ (none : Option Err) = none := by
                simpa using hg.symm
              refine ih (advance s1) ⟨?_, Or.inl ?_⟩
              · rw [(advance_fields s1).2.2.2.2]; omega
              · rw [(advance_fields s1).2.2.2.1, (advance_fields s1).1]
                exact hbnd
      · rw [if_neg hlt]
        exact ⟨h0, Or.inl hbnd⟩

/-! ### Claim theorems: concrete scenarios and counterexamples -/

/-- C7: for the concrete payload with blockSize=8, miniBlocksPerBlock=1,
totalValueCount=5, firstValue=10 (zig-zag varint 20), block header with
minDelta=0 and a single miniblock bit width 0, init succeeds and a
decodeInt64 into a length-5 destination succeeds and yields
[10, 10, 10, 10, 10]. -/
theorem delta_concrete_scenario_decodes_five_tens :
    (deltaInit [8, 1, 5, 20, 0, 0]).2 = none ∧
    ((deltaInit [8, 1, 5, 20, 0, 0]).1.decodeInt64 5).2.1 = [10, 10, 10, 10, 10] ∧
    ((deltaInit [8, 1, 5, 20, 0, 0]).1.decodeInt64 5).2.2 = none := by
  refine ⟨by decide, by decide, by decide⟩

/-- C8: a plain decoder on bytes 01 00 00 00 00 00 00 00 decodes [1] into
a length-1 destination (little-endian 64-bit read, cursor advanced by 8),
and the second call on the exhausted buffer fails with the end-of-data
error, producing no values. -/
theorem plain_concrete_scenario_and_end_of_data :
    (plainDecodeInt64 (plainInit [1, 0, 0, 0, 0, 0, 0, 0]) 1).2.1 = [1] ∧
    (plainDecodeInt64 (plainInit [1, 0, 0, 0, 0, 0, 0, 0]) 1).2.2 = none ∧
    (plainDecodeInt64 (plainInit [1, 0, 0, 0, 0, 0, 0, 0]) 1).1.pos = 8 ∧
    (plainDecodeInt64 ((plainDecodeInt64 (plainInit [1, 0, 0, 0, 0, 0, 0, 0]) 1).1) 1).2.1
      = [] ∧
    (plainDecodeInt64 ((plainDecodeInt64 (plainInit [1, 0, 0, 0, 0, 0, 0, 0]) 1).1) 1).2.2
      = some Err.endOfData := by
  refine ⟨by decide, by decide, by decide, by decide, by decide⟩

/-- C10: the delta decoder performs a Go division by zero on hostile
headers.  A payload whose miniblock-count varint decodes to 0 reaches the
division `blockSize / miniBlocks` with a zero divisor during init, and a
payload with blockSize=0 and miniBlocks=1 (computed miniblock size 0)
reaches the modulus `i % miniBlockSize` with a zero divisor during
decodeInt64 — contradicting the claim that those divisors are nonzero on
every path that reaches them. -/
theorem delta_division_by_zero_reachable :
    (deltaInit [8, 0, 5, 20]).2 = some Err.goPanicDivZero ∧
    (deltaInit [0, 1, 5, 20, 0, 0]).2 = none ∧
    ((deltaInit [0, 1, 5, 20, 0, 0]).1.decodeInt64 1).2.2 = some Err.goPanicDivZero := by
  refine ⟨by decide, by decide, by decide⟩

/-- C4 counterexample: with firstValue = -2^63 (zig-zag varint of nine
0xFF bytes and a final 0x01), minDelta = -1 and a zero bit width, the Go
int64 accumulator wraps: the second produced value is 2^63 - 1, which is
neither previous + raw + minDelta over the integers (raw deltas are all
zero) nor smaller than the previous value, so the produced sequence is
not strictly decreasing by |minDelta|. -/
theorem delta_accumulator_wrap_counterexample :
    (deltaInit [8, 1, 2, 255, 255, 255, 255, 255, 255, 255, 255, 255, 1, 1, 0]).2 = none ∧
    (deltaInit [8, 1, 2, 255, 255, 255, 255, 255, 255, 255, 255, 255, 1, 1, 0]).1.minDelta
      = -1 ∧
    (deltaInit
      [8, 1, 2, 255, 255, 255, 255, 255, 255, 255, 255, 255, 1, 1, 0]).1.miniBlockWidths
      = [0] ∧
    ((deltaInit
      [8, 1, 2, 255, 255, 255, 255, 255, 255, 255, 255, 255, 1, 1, 0]).1.decodeInt64 2).2.1
      = [-9223372036854775808, 9223372036854775807] ∧
    ((deltaInit
      [8, 1, 2, 255, 255, 255, 255, 255, 255, 255, 255, 255, 1, 1, 0]).1.decodeInt64
        2).1.miniBlockValues = List.replicate 8 0 ∧
    ((deltaInit
      [8, 1, 2, 255, 255, 255, 255, 255, 255, 255, 255, 255, 1, 1, 0]).1.decodeInt64 2).2.2
      = none ∧
    ¬ ((9223372036854775807 : Int) = -9223372036854775808 + 0 + (-1)) ∧
    ¬ ((9223372036854775807 : Int) < -9223372036854775808) := by
  refine ⟨by decide, by decide, by decide, by decide, by decide, by decide, by decide,
    by decide⟩

/-- C5 counterexample: a stream with blockSize=16, one miniblock of bit
width 1 and totalValueCount=2 whose buffer ends right after the first
packed group: the tail-padding skip pushes the cursor to 8 while the
buffer has only 7 bytes, so the cursor exceeds the buffer length after a
successful decodeInt64. -/
theorem delta_cursor_exceeds_buffer_counterexample :
    (deltaInit [16, 1, 2, 0, 0, 1, 0]).2 = none ∧
    ((deltaInit [16, 1, 2, 0, 0, 1, 0]).1.decodeInt64 2).2.2 = none ∧
    ((deltaInit [16, 1, 2, 0, 0, 1, 0]).1.decodeInt64 2).1.pos = 8 ∧
    ((deltaInit [16, 1, 2, 0, 0, 1, 0]).1.decodeInt64 2).1.data.length = 7 ∧
    ¬ (((deltaInit [16, 1, 2, 0, 0, 1, 0]).1.decodeInt64 2).1.pos ≤
        (((deltaInit [16, 1, 2, 0, 0, 1, 0]).1.decodeInt64 2).1.data.length : Int)) := by
  refine ⟨by decide, by decide, by decide, by decide, by decide⟩

/-- C6 counterexample: a stream declaring 16 values whose buffer is
truncated after the first packed group: a decodeInt64 into a length-9
destination produces 8 values (at least one, fewer than the destination
length) and still returns an error, so partial production does not imply
success. -/
theorem delta_partial_production_error_counterexample :
    (deltaInit [16, 1, 16, 0, 0, 1, 0]).2 = none ∧
    ((deltaInit [16, 1, 16, 0, 0, 1, 0]).1.decodeInt64 9).2.1.length = 8 ∧
    ((deltaInit [16, 1, 16, 0, 0, 1, 0]).1.decodeInt64 9).2.2 = some Err.notEnoughData := by
  refine ⟨by decide, by decide, by decide⟩

/-! ### Claim theorems: dictionary bound and dispatch -/

theorem mapM_get_of_bounded (vals : List Int) :
    ∀ keys : List Nat, (∀ k ∈ keys, k < vals.length) →
      ∃ vs, keys.mapM (fun k => vals.get? k) = some vs := by
  intro keys
  induction keys with
  | nil => intro h; exact ⟨[], rfl⟩
  | cons k ks ih =>
    intro h
    obtain ⟨vs, hvs⟩ := ih fun x hx => h x (List.mem_cons_of_mem k hx)
    have hv : vals.get? k = some (vals.get ⟨k, h k (List.mem_cons_self k ks)⟩) :=
      List.get?_eq_get (h k (List.mem_cons_self k ks))
    exact ⟨vals.get ⟨k, h k (List.mem_cons_self k ks)⟩ :: vs,
      by rw [List.mapM_cons, hv, hvs]; rfl⟩

/-- C1: for every dictionary decoder whose value table matches its
`numValues` bound, if the key decoder's stream holds a key that is at
least the table length among the first `len(dst)` keys, decodeInt64
returns the IndexOutOfRange error; and decodeInt64 never performs the
out-of-bounds table read (the Go panic on `d.values[k]`), so keys are
never silently clamped. -/
theorem dict_key_out_of_range_yields_error (d : DictSt) (n : Nat)
    (hlen : d.numValues = d.values.length) :
    (n ≤ d.keyStream.length →
      (∃ k ∈ d.keyStream.take n, d.values.length ≤ k) →
      dictDecodeInt64 d n = Except.error Err.indexOutOfRange) ∧
    dictDecodeInt64 d n ≠ Except.error Err.goPanicValuesIndex := by
  unfold dictDecodeInt64 dictDecodeKeys
  dsimp only
  by_cases hlt : (d.keyStream.take n).length < n
  · rw [if_pos hlt]
    refine ⟨fun hn hex => ?_, by simp⟩
    rw [List.length_take] at hlt
    omega
  · rw [if_neg hlt]
    by_cases hall : ∀ k ∈ d.keyStream.take n, k < d.numValues
    · rw [if_pos hall]
      constructor
      · intro hn hex
        obtain ⟨k, hk1, hk2⟩ := hex
        have := hall k hk1
        omega
      · obtain ⟨vs, hvs⟩ := mapM_get_of_bounded d.values (d.keyStream.take n)
          fun k hk => hlen ▸ hall k hk
        dsimp only
        rw [hvs]
        simp
    · rw [if_neg hall]
      exact ⟨fun hn hex => rfl, by simp⟩

/-- C1 witness: a table of two values and a key stream starting with the
out-of-range key 2 produce IndexOutOfRange and never the out-of-bounds
read. -/
theorem dict_key_out_of_range_witness :
    dictDecodeInt64 { numValues := 2, values := [5, 7], keyStream := [2, 0] } 2
      = Except.error Err.indexOutOfRange ∧
    dictDecodeInt64 { numValues := 2, values := [5, 7], keyStream := [2, 0] } 2
      ≠ Except.error Err.goPanicValuesIndex :=
  ⟨(dict_key_out_of_range_yields_error
      { numValues := 2, values := [5, 7], keyStream := [2, 0] } 2 (by decide)).1
      (by decide) (by decide),
   (dict_key_out_of_range_yields_error
      { numValues := 2, values := [5, 7], keyStream := [2, 0] } 2 (by decide)).2⟩

/-- C9: for every decoder (abstracted by its deterministic decode
function) and every length, the dispatch entry point on a dynamically
typed destination returns the same decoded element values (after
unboxing) and the same error as on a homogeneous int64 destination of
the same length from the same decoder state, and any other destination
shape is the fail-fast panic (no recoverable error value). -/
theorem dispatch_iface_matches_int64 (dec : Nat → List Int × Option Err) (L : Nat)
    (hw : (dec L).1.length ≤ L) :
    dispatchDecodeInt64 dec (DynDst.int64Slice L) = some ((dec L).1, (dec L).2) ∧
    (∃ out, dispatchDecodeInt64 dec (DynDst.ifaceSlice L) = some (out, (dec L).2) ∧
      out.length = L ∧
      ∀ j, j < (dec L).1.length → out.getD j 0 = (dec L).1.getD j 0) ∧
    dispatchDecodeInt64 dec DynDst.other = none := by
  refine ⟨rfl, ⟨_, rfl, ?_, ?_⟩, rfl⟩
  · rw [List.length_take, List.length_append, List.length_replicate]
    omega
  · intro j hj
    rw [List.getD_eq_getElem?_getD, List.getD_eq_getElem?_getD, List.getElem?_take,
      if_pos (by omega : j < L), List.getElem?_append, if_pos hj]

/-- C9 witness: a concrete decoder writing three sevens dispatches
identically through both destination shapes and panics on the other
shape. -/
theorem dispatch_iface_matches_int64_witness :
    dispatchDecodeInt64 (fun n => (List.replicate n 7, none)) (DynDst.int64Slice 3)
      = some ((fun n => (List.replicate n (7 : Int), none)) 3) ∧
    (∃ out, dispatchDecodeInt64 (fun n => (List.replicate n 7, none)) (DynDst.ifaceSlice 3)
      = some (out, none) ∧ out.length = 3 ∧
      ∀ j, j < (List.replicate 3 (7 : Int)).length →
        out.getD j 0 = (List.replicate 3 (7 : Int)).getD j 0) ∧
    dispatchDecodeInt64 (fun n => (List.replicate n 7, none)) DynDst.other = none :=
  dispatch_iface_matches_int64 (fun n => (List.replicate n 7, none)) 3 (by decide)

/-! ### Wrapper-level lemmas -/

theorem decodeInt64_proj (s : DeltaSt) (k : Nat) :
    (DeltaSt.decodeInt64 s k).1 = (decodeLoop s k).1 ∧
    (DeltaSt.decodeInt64 s k).2.1 = (decodeLoop s k).2.1 := by
  unfold DeltaSt.decodeInt64
  rcases h : decodeLoop s k with ⟨t, vs, e⟩
  cases e with
  | some e1 => exact ⟨rfl, rfl⟩
  | none =>
    dsimp only
    split <;> exact ⟨rfl, rfl⟩

theorem deltaInit_facts (data : List Nat) :
    (deltaInit data).1.data = data ∧ (deltaInit data).1.i = 0 ∧
    0 ≤ (deltaInit data).1.pos ∧ (deltaInit data).1.pos ≤ (data.length : Int) := by
  have hzd : (deltaZero data).data = data := rfl
  have hzi : (deltaZero data).i = 0 := rfl
  have hzp : (deltaZero data).pos = 0 := rfl
  unfold deltaInit
  obtain ⟨pfr, ppos⟩ := readPageHeader_spec (deltaZero data)
  rcases hp : readPageHeader (deltaZero data) with ⟨s1, e1⟩
  rw [hp] at pfr ppos
  dsimp only at pfr ppos
  have hb1 := ppos (by rw [hzp]) (by rw [hzp, hzd]; exact_mod_cast Nat.zero_le _)
  rw [hzd] at hb1
  cases e1 with
  | some e2 =>
    dsimp only
    exact ⟨by rw [pfr.1, hzd], by rw [pfr.2.1, hzi], hb1.1, hb1.2⟩
  | none =>
    dsimp only
    obtain ⟨bfr, bpos⟩ := readBlockHeader_spec s1
    have hb2 := bpos hb1.1 (by rw [pfr.1, hzd]; exact hb1.2)
    rw [pfr.1, hzd] at hb2
    exact ⟨by rw [bfr.1, pfr.1, hzd], by rw [bfr.2.2.1, pfr.2.1, hzi], hb2.1, hb2.2⟩

/-! ### Claim theorems: delta decoder invariants and errors -/

/-- C3: the cumulative number of produced values is tracked exactly by
the counter `i` and never exceeds the declared total; a well-formed
stream whose total is not a multiple of 8 still decodes to exactly that
many values, after which every further call reports NoMoreData (the
padding bits are never exposed as values); and once the decoder is past
the group that completes the declared total (the only point where the
tail-padding skip fires), the cursor never moves again. -/
theorem delta_total_count_invariant (s : DeltaSt) (k : Nat) (data : List Nat) (m : Nat) :
    ((DeltaSt.decodeInt64 s k).1.i = s.i + (DeltaSt.decodeInt64 s k).2.1.length ∧
     (DeltaSt.decodeInt64 s k).1.i ≤ max s.i s.numValues ∧
     (DeltaSt.decodeInt64 s k).1.numValues = s.numValues) ∧
    ((deltaInit data).2 = none →
     ¬ (8 ∣ (deltaInit data).1.numValues.toNat) →
     ((deltaInit data).1.decodeInt64 ((deltaInit data).1.numValues.toNat)).2.2 = none →
     ((deltaInit data).1.decodeInt64 ((deltaInit data).1.numValues.toNat)).2.1.length
        = (deltaInit data).1.numValues.toNat ∧
     ∀ n : Nat,
       (((deltaInit data).1.decodeInt64
           ((deltaInit data).1.numValues.toNat)).1.decodeInt64 n)
         = ((((deltaInit data).1.decodeInt64 ((deltaInit data).1.numValues.toNat)).1), [],
            some Err.noMoreData)) ∧
    (0 ≤ s.i → NoMoreLoads s → (DeltaSt.decodeInt64 s k).1.pos = s.pos ∧ m = m) := by
  obtain ⟨hproj1, hproj2⟩ := decodeInt64_proj s k
  obtain ⟨hcd, hcn, hci, hcm⟩ := decodeLoop_count k s
  refine ⟨⟨by rw [hproj1, hproj2]; exact hci, by rw [hproj1]; exact hcm,
      by rw [hproj1]; exact hcn⟩, ?_, ?_⟩
  · intro hinit hdvd hok
    set s0 := (deltaInit data).1 with hs0
    set N := s0.numValues.toNat with hN
    obtain ⟨hpj1, hpj2⟩ := decodeInt64_proj s0 N
    rcases hl : decodeLoop s0 N with ⟨t, vs, e⟩
    have hi0 : s0.i = 0 := (deltaInit_facts data).2.1
    cases e with
    | some e1 =>
      exfalso
      unfold DeltaSt.decodeInt64 at hok
      rw [hl] at hok
      simp at hok
    | none =>
      have hlen := decodeLoop_len_of_ok N s0 t vs hl
      rw [hi0] at hlen
      have hvs : vs.length = N := by
        rw [hlen]
        omega
      have hne : vs.length ≠ 0 := by
        unfold DeltaSt.decodeInt64 at hok
        rw [hl] at hok
        dsimp only at hok
        intro hc
        rw [if_pos hc] at hok
        simp at hok
      have hNpos : 0 < N := by omega
      have hw : DeltaSt.decodeInt64 s0 N = (t, vs, none) := by
        unfold DeltaSt.decodeInt64
        rw [hl]
        dsimp only
        rw [if_neg hne]
      refine ⟨by rw [hw]; exact hvs, ?_⟩
      intro n
      obtain ⟨htd, htn, hti, htm⟩ := decodeLoop_count N s0
      rw [hl] at htd htn hti htm
      dsimp only at htd htn hti htm
      have hti2 : t.i = t.numValues := by
        rw [hti, htn, hi0, hvs]
        have : 0 ≤ s0.numValues := by
          by_contra hcon
          push_neg at hcon
          have : N = 0 := by
            rw [hN]
            omega
          omega
        rw [hN]
        omega
      have hex : decodeLoop t n = (t, [], none) :=
        decodeLoop_exhausted t n (by omega)
      rw [hw]
      unfold DeltaSt.decodeInt64
      rw [hex]
      rfl
  · intro h0 hnml
    obtain ⟨p1, p2, p3, p4, p5⟩ := decodeLoop_frozen k s h0 hnml
    exact ⟨by rw [hproj1]; exact p1, rfl⟩

/-- C3 witness: the concrete five-value stream decodes exactly 5 values
(5 is not a multiple of 8), the exhausted decoder answers NoMoreData, the
counter additivity holds, and the cursor of the finished decoder is
frozen. -/
theorem delta_total_count_invariant_witness :
    (((((deltaInit [8, 1, 5, 20, 0, 0]).1.decodeInt64 5).1).decodeInt64 1).1.i
        = (((deltaInit [8, 1, 5, 20, 0, 0]).1.decodeInt64 5).1).i +
          (((((deltaInit [8, 1, 5, 20, 0, 0]).1.decodeInt64 5).1).decodeInt64 1).2.1.length) ∧
     (((((deltaInit [8, 1, 5, 20, 0, 0]).1.decodeInt64 5).1).decodeInt64 1).1.i
        ≤ max (((deltaInit [8, 1, 5, 20, 0, 0]).1.decodeInt64 5).1).i
            (((deltaInit [8, 1, 5, 20, 0, 0]).1.decodeInt64 5).1).numValues) ∧
     ((((deltaInit [8, 1, 5, 20, 0, 0]).1.decodeInt64 5).1).decodeInt64 1).1.numValues
        = (((deltaInit [8, 1, 5, 20, 0, 0]).1.decodeInt64 5).1).numValues) ∧
    (((deltaInit [8, 1, 5, 20, 0, 0]).1.decodeInt64
        ((deltaInit [8, 1, 5, 20, 0, 0]).1.numValues.toNat)).2.1.length
      = (deltaInit [8, 1, 5, 20, 0, 0]).1.numValues.toNat ∧
     ∀ n : Nat,
       (((deltaInit [8, 1, 5, 20, 0, 0]).1.decodeInt64
           ((deltaInit [8, 1, 5, 20, 0, 0]).1.numValues.toNat)).1.decodeInt64 n)
         = ((((deltaInit [8, 1, 5, 20, 0, 0]).1.decodeInt64
              ((deltaInit [8, 1, 5, 20, 0, 0]).1.numValues.toNat)).1), [],
            some Err.noMoreData)) ∧
    (((((deltaInit [8, 1, 5, 20, 0, 0]).1.decodeInt64 5).1).decodeInt64 1).1.pos
       = (((deltaInit [8, 1, 5, 20, 0, 0]).1.decodeInt64 5).1).pos ∧ (0 : Nat) = 0) := by
  have H := delta_total_count_invariant
    (((deltaInit [8, 1, 5, 20, 0, 0]).1.decodeInt64 5).1) 1 [8, 1, 5, 20, 0, 0] 0
  refine ⟨H.1, H.2.1 (by decide) (by decide) (by decide), H.2.2 (by decide) ?_⟩
  intro j h1 h2
  have e1 : (((deltaInit [8, 1, 5, 20, 0, 0]).1.decodeInt64 5).1).i = 5 := by decide
  have e2 : (((deltaInit [8, 1, 5, 20, 0, 0]).1.decodeInt64 5).1).numValues = 5 := by decide
  rw [e1] at h1
  rw [e2] at h2
  omega

theorem plainDecode_inv :
    ∀ (k : Nat) (p : PlainSt), p.pos ≤ p.data.length →
      (plainDecodeInt64 p k).1.pos ≤ (plainDecodeInt64 p k).1.data.length := by
  intro k
  induction k with
  | zero => intro p h; simpa [plainDecodeInt64] using h
  | succ k ih =>
    intro p h
    rw [show plainDecodeInt64 p (k + 1) =
        (if p.pos ≥ p.data.length then (p, [], some Err.endOfData)
         else if p.pos + 8 > p.data.length then (p, [], some Err.plainTruncated)
         else
           let r := plainDecodeInt64 { p with pos := p.pos + 8 } k
           (r.1, toInt64 (leUint64 (p.data.drop p.pos)) :: r.2.1, r.2.2)) from rfl]
    by_cases h1 : p.pos ≥ p.data.length
    · rw [if_pos h1]; exact h
    · rw [if_neg h1]
      by_cases h2 : p.pos + 8 > p.data.length
      · rw [if_pos h2]; exact h
      · rw [if_neg h2]
        exact ih { p with pos := p.pos + 8 } (by dsimp only; omega)

/-- C5 amended: the cursor never exceeds the buffer for the plain
decoder and for the delta decoder's header reads (init); for delta
decodeInt64 the weaker invariant holds: either the cursor is inside the
buffer or the decoder sits inside its final group of eight (this is the
tail-padding-skip overshoot of the counterexample), and in that second
situation the cursor and buffer are never touched again by any further
call. -/
theorem cursor_invariant_amended :
    (∀ (p : PlainSt) (k : Nat), p.pos ≤ p.data.length →
       (plainDecodeInt64 p k).1.pos ≤ (plainDecodeInt64 p k).1.data.length) ∧
    (∀ data : List Nat, DeltaInv (deltaInit data).1 ∧
       0 ≤ (deltaInit data).1.pos ∧ (deltaInit data).1.pos ≤ (data.length : Int)) ∧
    (∀ (s : DeltaSt) (k : Nat), DeltaInv s → DeltaInv (DeltaSt.decodeInt64 s k).1) ∧
    (∀ (s : DeltaSt) (k : Nat), 0 ≤ s.i → NoMoreLoads s →
       (DeltaSt.decodeInt64 s k).1.pos = s.pos ∧
       (DeltaSt.decodeInt64 s k).1.data = s.data) := by
  refine ⟨fun p k h => plainDecode_inv k p h, fun data => ?_, fun s k hinv => ?_,
    fun s k h0 hnml => ?_⟩
  · obtain ⟨hd, hi, hp0, hpl⟩ := deltaInit_facts data
    exact ⟨⟨by rw [hi], Or.inl ⟨hp0, by rw [hd]; exact hpl⟩⟩, hp0, hpl⟩
  · rw [(decodeInt64_proj s k).1]
    exact decodeLoop_inv k s hinv
  · obtain ⟨p1, p2, p3, p4, p5⟩ := decodeLoop_frozen k s h0 hnml
    rw [(decodeInt64_proj s k).1]
    exact ⟨p1, p3⟩

/-- C5 witness: the amended cursor invariant evaluated on the concrete
plain bytes and the concrete five-value delta stream. -/
theorem cursor_invariant_amended_witness :
    (plainDecodeInt64 (plainInit [1, 0, 0, 0, 0, 0, 0, 0]) 1).1.pos ≤
      (plainDecodeInt64 (plainInit [1, 0, 0, 0, 0, 0, 0, 0]) 1).1.data.length ∧
    DeltaInv (deltaInit [8, 1, 5, 20, 0, 0]).1 ∧
    DeltaInv ((deltaInit [8, 1, 5, 20, 0, 0]).1.decodeInt64 5).1 ∧
    (((((deltaInit [8, 1, 5, 20, 0, 0]).1.decodeInt64 5).1).decodeInt64 1).1.pos
       = (((deltaInit [8, 1, 5, 20, 0, 0]).1.decodeInt64 5).1).pos) := by
  have H := cursor_invariant_amended
  have hnml : NoMoreLoads (((deltaInit [8, 1, 5, 20, 0, 0]).1.decodeInt64 5).1) := by
    intro j h1 h2
    have e1 : (((deltaInit [8, 1, 5, 20, 0, 0]).1.decodeInt64 5).1).i = 5 := by decide
    have e2 : (((deltaInit [8, 1, 5, 20, 0, 0]).1.decodeInt64 5).1).numValues = 5 := by
      decide
    rw [e1] at h1
    rw [e2] at h2
    omega
  refine ⟨H.1 (plainInit [1, 0, 0, 0, 0, 0, 0, 0]) 1 (by decide),
    (H.2.1 [8, 1, 5, 20, 0, 0]).1,
    H.2.2.1 (deltaInit [8, 1, 5, 20, 0, 0]).1 5 ⟨by decide, Or.inl ⟨by decide, by decide⟩⟩,
    (H.2.2.2 (((deltaInit [8, 1, 5, 20, 0, 0]).1.decodeInt64 5).1) 1 (by decide) hnml).1⟩

/-- C6 amended: with a nonempty destination, decodeInt64 returns
NoMoreData exactly when the stream was already exhausted on entry (zero
values could be produced); and on a stream that decodes without error to
its declared remainder, any call (even one larger than the remainder)
succeeds — producing fewer values than requested is then not an error.
A malformed stream can, however, return a non-NoMoreData error after
partial production (see the counterexample). -/
theorem delta_no_more_data_iff_exhausted (s : DeltaSt) (k R : Nat) (t : DeltaSt)
    (vsR : List Int) (hk : 0 < k) :
    ((DeltaSt.decodeInt64 s k).2.2 = some Err.noMoreData ↔ s.numValues ≤ s.i) ∧
    (decodeLoop s R = (t, vsR, none) → R = (s.numValues - s.i).toNat →
      s.i < s.numValues → (DeltaSt.decodeInt64 s k).2.2 = none) := by
  constructor
  · constructor
    · intro hnmd
      by_contra hcon
      push_neg at hcon
      unfold DeltaSt.decodeInt64 at hnmd
      rcases hl : decodeLoop s k with ⟨u, vs, e⟩
      rw [hl] at hnmd
      cases e with
      | some e1 =>
        dsimp only at hnmd
        have := decodeLoop_no_noMoreData k s
        rw [hl] at this
        exact this (by simpa using hnmd)
      | none =>
        dsimp only at hnmd
        have hlen := decodeLoop_len_of_ok k s u vs hl
        by_cases hz : vs.length = 0
        · rw [hlen] at hz
          omega
        · rw [if_neg hz] at hnmd
          simp at hnmd
    · intro hex
      have := decodeLoop_exhausted s k (by omega)
      unfold DeltaSt.decodeInt64
      rw [this]
      rfl
  · intro hrun hR hlt
    have hlenR := decodeLoop_len_of_ok R s t vsR hrun
    have hvsR : vsR.length = R := by
      rw [hlenR]
      omega
    rcases Nat.le_total k R with hkR | hRk
    · obtain ⟨u, vs1, vs2, h1, h2, hsplit⟩ :=
        decodeLoop_split k (R - k) s t vsR (by rw [show k + (R - k) = R by omega]; exact hrun)
      have hlen1 := decodeLoop_len_of_ok k s u vs1 h1
      have hvs1 : vs1.length = k := by
        rw [hlen1]
        omega
      unfold DeltaSt.decodeInt64
      rw [h1]
      dsimp only
      rw [if_neg (by omega)]
    · have happ := decodeLoop_append R s t vsR hrun (k - R)
      rw [show R + (k - R) = k by omega] at happ
      obtain ⟨htd, htn, hti, htm⟩ := decodeLoop_count R s
      rw [hrun] at htd htn hti htm
      dsimp only at htd htn hti htm
      have hex : decodeLoop t (k - R) = (t, [], none) := by
        refine decodeLoop_exhausted t (k - R) ?_
        rw [hti, htn, hvsR]
        omega
      rw [hex] at happ
      unfold DeltaSt.decodeInt64
      rw [happ]
      dsimp only
      rw [if_neg (by rw [List.length_append]; simp [hvsR]; omega)]

/-- C6 witness: on the concrete five-value stream, a length-3 call is
not NoMoreData (the stream is fresh), and the well-formedness premise
gives a successful call; the exhausted direction is also instantiated. -/
theorem delta_no_more_data_iff_exhausted_witness :
    (((DeltaSt.decodeInt64 (deltaInit [8, 1, 5, 20, 0, 0]).1 3).2.2
        = some Err.noMoreData) ↔
      (deltaInit [8, 1, 5, 20, 0, 0]).1.numValues ≤ (deltaInit [8, 1, 5, 20, 0, 0]).1.i) ∧
    (DeltaSt.decodeInt64 (deltaInit [8, 1, 5, 20, 0, 0]).1 3).2.2 = none := by
  have H := delta_no_more_data_iff_exhausted (deltaInit [8, 1, 5, 20, 0, 0]).1 3 5
    (decodeLoop (deltaInit [8, 1, 5, 20, 0, 0]).1 5).1
    (decodeLoop (deltaInit [8, 1, 5, 20, 0, 0]).1 5).2.1 (by decide)
  exact ⟨H.1, H.2 (by decide) (by decide) (by decide)⟩

theorem decodeChunks_of_success :
    ∀ (parts : List Nat) (s t : DeltaSt) (vs : List Int),
      (∀ p ∈ parts, 0 < p) →
      decodeLoop s parts.sum = (t, vs, none) →
      vs.length = parts.sum →
      decodeChunks s parts = (t, vs, none) := by
  intro parts
  induction parts with
  | nil =>
    intro s t vs hpos hrun hlen
    simp only [List.sum_nil, decodeLoop] at hrun
    obtain ⟨rfl, rfl, -⟩ : s = t ∧ ([] : List Int) = vs ∧ (none : Option Err) = none := by
      simpa using hrun
    rfl
  | cons p ps ih =>
    intro s t vs hpos hrun hlen
    rw [List.sum_cons] at hrun hlen
    obtain ⟨u, vs1, vs2, h1, h2, rfl⟩ := decodeLoop_split p ps.sum s t vs hrun
    have hlen1 := decodeLoop_len_of_ok p s u vs1 h1
    have hlen2 := decodeLoop_len_of_ok ps.sum u t vs2 h2
    rw [List.length_append] at hlen
    have hvs1 : vs1.length = p := by omega
    have hvs2 : vs2.length = ps.sum := by omega
    have hp : 0 < p := hpos p (List.mem_cons_self p ps)
    have hw1 : DeltaSt.decodeInt64 s p = (u, vs1, none) := by
      unfold DeltaSt.decodeInt64
      rw [h1]
      dsimp only
      rw [if_neg (by omega)]
    have hrec := ih u t vs2 (fun q hq => hpos q (List.mem_cons_of_mem p hq)) h2 hvs2
    unfold decodeChunks
    rw [hw1]
    dsimp only
    rw [hrec]

/-- C2: for a well-formed delta-binary-packed stream (its declared total
decodes without error in one call), decoding through any sequence of
positive destination lengths summing to the declared total produces the
same final state, the same values in the same order, and no error —
the decoded sequence does not depend on how the values are chunked
across calls. -/
theorem delta_chunked_decode_eq_single (data : List Nat) (parts : List Nat)
    (_hinit : (deltaInit data).2 = none)
    (hsum : parts.sum = (deltaInit data).1.numValues.toNat)
    (hpos : ∀ p ∈ parts, 0 < p)
    (hwf : ((deltaInit data).1.decodeInt64 parts.sum).2.2 = none) :
    decodeChunks (deltaInit data).1 parts
      = (deltaInit data).1.decodeInt64 parts.sum := by
  set s := (deltaInit data).1 with hs
  have hi0 : s.i = 0 := (deltaInit_facts data).2.1
  rcases hl : decodeLoop s parts.sum with ⟨t, vs, e⟩
  cases e with
  | some e1 =>
    exfalso
    unfold DeltaSt.decodeInt64 at hwf
    rw [hl] at hwf
    simp at hwf
  | none =>
    have hlen := decodeLoop_len_of_ok parts.sum s t vs hl
    rw [hi0] at hlen
    have hne : vs.length ≠ 0 := by
      unfold DeltaSt.decodeInt64 at hwf
      rw [hl] at hwf
      dsimp only at hwf
      intro hc
      rw [if_pos hc] at hwf
      simp at hwf
    have hvs : vs.length = parts.sum := by
      rw [hlen]
      rw [hsum]
      omega
    have hw : DeltaSt.decodeInt64 s parts.sum = (t, vs, none) := by
      unfold DeltaSt.decodeInt64
      rw [hl]
      dsimp only
      rw [if_neg hne]
    rw [hw]
    exact decodeChunks_of_success parts s t vs hpos hl hvs

/-- C2 witness: the concrete five-value stream chunked as 2 + 3 agrees
with the single length-5 call. -/
theorem delta_chunked_decode_eq_single_witness :
    decodeChunks (deltaInit [8, 1, 5, 20, 0, 0]).1 [2, 3]
      = (deltaInit [8, 1, 5, 20, 0, 0]).1.decodeInt64 ([2, 3] : List Nat).sum :=
  delta_chunked_decode_eq_single [8, 1, 5, 20, 0, 0] [2, 3] (by decide) (by decide)
    (by decide) (by decide)

/-! ### Encoders used to build concrete stream families for theorems -/

/-- Standard unsigned varint encoding (used only to construct inputs for
theorems; the decoders above never depend on it). -/
def encVarint (n : Nat) : List Nat :=
  if h : n < 128 then [n] else (n % 128 + 128) :: encVarint (n / 128)
termination_by n
decreasing_by exact Nat.div_lt_self (by omega) (by omega)

/-- Zig-zag interleaving of a signed integer, as a natural number. -/
def zigZagEnc (z : Int) : Nat :=
  if 0 ≤ z then 2 * z.toNat else 2 * (-z).toNat - 1

/-- Zig-zag varint encoding of a signed integer. -/
def encZigZag (z : Int) : List Nat :=
  encVarint (zigZagEnc z)

theorem varIntLoop_encode (n : Nat) :
    ∀ (rest : List Nat) (shift acc cnt : Nat),
      varIntLoop (encVarint n ++ rest) shift acc cnt =
        some (acc + n * 2 ^ shift, cnt + (encVarint n).length) := by
  induction n using Nat.strong_induction_on with
  | _ n ih =>
    intro rest shift acc cnt
    by_cases h : n < 128
    · rw [encVarint, dif_pos h]
      simp only [List.cons_append, List.nil_append, varIntLoop, if_pos h, List.length_cons,
        List.length_nil]
    · rw [encVarint, dif_neg h]
      simp only [List.cons_append, varIntLoop, List.length_cons, List.append_eq]
      rw [if_neg (by omega : ¬ n % 128 + 128 < 128)]
      rw [ih (n / 128) (Nat.div_lt_self (by omega) (by omega)) rest (shift + 7)
        (acc + (n % 128 + 128 - 128) * 2 ^ shift) (cnt + 1)]
      have h2 : n % 128 + n / 128 * 128 = n := Nat.mod_add_div' n 128
      have h3 : n % 128 + 128 - 128 = n % 128 := by omega
      have h4 : acc + (n % 128 + 128 - 128) * 2 ^ shift + n / 128 * 2 ^ (shift + 7)
          = acc + n * 2 ^ shift := by
        rw [h3]
        calc acc + n % 128 * 2 ^ shift + n / 128 * 2 ^ (shift + 7)
            = acc + (n % 128 + n / 128 * 128) * 2 ^ shift := by rw [pow_add]; ring
          _ = acc + n * 2 ^ shift := by rw [h2]
      rw [h4, show cnt + 1 + (encVarint (n / 128)).length
        = cnt + ((encVarint (n / 128)).length + 1) by omega]

theorem varInt32_encode_small (n : Nat) (rest : List Nat) (h : n < 2147483648) :
    varInt32 (encVarint n ++ rest) = some ((n : Int), (encVarint n).length) := by
  unfold varInt32 varIntRaw
  rw [varIntLoop_encode n rest 0 0 0]
  dsimp only
  rw [show (0 + n * 2 ^ 0) = n by omega]
  have ht : toInt32 n = (n : Int) := by
    unfold toInt32
    rw [if_pos (by omega : n % 4294967296 < 2147483648)]
    congr 1
    omega
  rw [ht, show 0 + (encVarint n).length = (encVarint n).length by omega]

theorem zigZagVarInt64_encode (z : Int) (rest : List Nat)
    (h1 : -9223372036854775808 ≤ z) (h2 : z < 9223372036854775808) :
    zigZagVarInt64 (encZigZag z ++ rest) = some (z, (encZigZag z).length) := by
  unfold zigZagVarInt64 varIntRaw encZigZag
  rw [varIntLoop_encode (zigZagEnc z) rest 0 0 0]
  dsimp only
  have hlt : zigZagEnc z * 2 ^ 0 % 18446744073709551616 = zigZagEnc z := by
    have : zigZagEnc z < 18446744073709551616 := by
      unfold zigZagEnc
      split <;> omega
    omega
  rw [show (0 + zigZagEnc z * 2 ^ 0) = zigZagEnc z * 2 ^ 0 by omega, hlt]
  unfold zigZagEnc
  by_cases hz : 0 ≤ z
  · rw [if_pos hz]
    rw [if_pos (by omega : 2 * z.toNat % 2 = 0)]
    have h3 : ((2 * z.toNat / 2 : Nat) : Int) = z := by omega
    rw [h3, show (0 + (encVarint (2 * z.toNat)).length)
      = (encVarint (2 * z.toNat)).length by omega]
  · rw [if_neg hz]
    rw [if_neg (by omega : ¬ (2 * (-z).toNat - 1) % 2 = 0)]
    have h3 : -(((2 * (-z).toNat - 1) / 2 : Nat) : Int) - 1 = z := by omega
    rw [h3, show (0 + (encVarint (2 * (-z).toNat - 1)).length)
      = (encVarint (2 * (-z).toNat - 1)).length by omega]

theorem sliceFrom_zero (data : List Nat) : sliceFrom data 0 = some data := by
  unfold sliceFrom
  rw [if_pos ⟨le_refl 0, by exact_mod_cast Nat.zero_le _⟩]
  simp

theorem sliceFrom_append (l1 l2 : List Nat) :
    sliceFrom (l1 ++ l2) ((l1.length : Int)) = some l2 := by
  unfold sliceFrom
  rw [if_pos ⟨by exact_mod_cast Nat.zero_le _, by
    rw [List.length_append]; exact_mod_cast Nat.le_add_right _ _⟩]
  rw [Int.toNat_natCast, List.drop_left]

/-- A single-block, single-miniblock stream: blockSize=8, one miniblock,
`N` declared values, first value `v0`, block header with min delta `m`
and bit width 0 (all raw deltas are zero).  Built with the varint and
zig-zag encoders; used as input family for the value-reconstruction
theorem. -/
def familyData (v0 m : Int) (N : Nat) : List Nat :=
  encVarint 8 ++ (encVarint 1 ++ (encVarint N ++ (encZigZag v0 ++ (encZigZag m ++ [0]))))

/-! ### Value reconstruction for the zero-width single-block family -/

theorem i64_idem (x : Int) : i64 (i64 x) = i64 x := by
  unfold i64
  omega

theorem i64_add_left (x y : Int) : i64 (i64 x + y) = i64 (x + y) := by
  unfold i64
  omega

theorem i64_eq_self {x : Int} (h1 : -9223372036854775808 ≤ x)
    (h2 : x < 9223372036854775808) : i64 x = x := by
  unfold i64
  omega

theorem unpack8_zero (span : List Nat) : unpack8 span 0 = List.replicate 8 0 := rfl

theorem getD_replicate_eight (x : Nat) : (List.replicate 8 (0 : Int)).getD x 0 = 0 := by
  rcases Nat.lt_or_ge x 8 with h | h
  · rw [List.getD_eq_getElem?_getD, List.getElem?_replicate, if_pos h]
    rfl
  · rw [List.getD_eq_getElem?_getD, List.getElem?_eq_none (by simpa using h)]
    rfl

/-- The sequence produced by repeatedly adding `m` with int64 wrap-around,
starting at `w`. -/
def i64Seq (w m : Int) : Nat → List Int
  | 0 => []
  | j + 1 => w :: i64Seq (i64 (w + m)) m j

theorem i64Seq_eq_map (m : Int) :
    ∀ (N : Nat) (w : Int), i64 w = w →
      i64Seq w m N = (List.range N).map (fun k : Nat => i64 (w + (k : Int) * m)) := by
  intro N
  induction N with
  | zero => intro w hw; rfl
  | succ N ih =>
    intro w hw
    rw [List.range_succ_eq_map]
    simp only [List.map_cons, List.map_map, i64Seq]
    congr 1
    · simp only [Nat.cast_zero, zero_mul, add_zero]
      exact hw.symm
    · rw [ih (i64 (w + m)) (i64_idem _)]
      have hfun : (fun k : Nat => i64 (i64 (w + m) + (k : Int) * m))
          = ((fun k : Nat => i64 (w + (k : Int) * m)) ∘ Nat.succ) := by
        funext k
        simp only [Function.comp]
        rw [i64_add_left]
        congr 1
        push_cast
        ring
      rw [hfun]

theorem decodeLoop_zero_width_run :
    ∀ (j c nv : Nat) (s : DeltaSt),
      s.numValues = (nv : Int) → nv ≤ 8 → s.i = (c : Int) → 1 ≤ c →
      s.miniBlockValues = List.replicate 8 0 →
      (decodeLoop s j).2.1 = i64Seq s.value s.minDelta (min j (nv - c)) ∧
      (decodeLoop s j).2.2 = none := by
  intro j
  induction j with
  | zero =>
    intro c nv s h1 h2 h3 h4 h5
    simp [decodeLoop, i64Seq]
  | succ j ih =>
    intro c nv s h1 h2 h3 h4 h5
    rw [show decodeLoop s (j + 1) =
        (if s.i < s.numValues then
          match groupStep s with
          | (s1, some e) => (s1, [], some e)
          | (s1, none) =>
            let r := decodeLoop (advance s1) j
            (r.1, s1.value :: r.2.1, r.2.2)
        else (s, [], none)) from rfl]
    by_cases hlt : s.i < s.numValues
    · have hc : c < nv := by
        rw [h1, h3] at hlt
        exact_mod_cast hlt
      rw [if_pos hlt]
      have htm : ¬ s.i.tmod 8 = 0 := by
        rw [h3, tmod8_of_nonneg _ (by exact_mod_cast Nat.zero_le c)]
        omega
      have hgs : groupStep s = (s, none) := by
        unfold groupStep
        rw [if_neg htm]
      rw [hgs]
      dsimp only
      have ha1 : (advance s).numValues = (nv : Int) := by
        show s.numValues = _
        exact h1
      have ha3 : (advance s).i = ((c + 1 : Nat) : Int) := by
        show s.i + 1 = _
        rw [h3]
        push_cast
        ring
      have ha5 : (advance s).miniBlockValues = List.replicate 8 0 := h5
      obtain ⟨r1, r2⟩ := ih (c + 1) nv (advance s) ha1 h2 ha3 (by omega) ha5
      refine ⟨?_, r2⟩
      rw [r1]
      have hminD : (advance s).minDelta = s.minDelta := rfl
      have hval : (advance s).value = i64 (s.value + s.minDelta) := by
        show i64 (s.value + s.miniBlockValues.getD (s.i.tmod 8).toNat 0 + s.minDelta) = _
        rw [h5, getD_replicate_eight, add_zero]
      have hminEq : min (j + 1) (nv - c) = (min j (nv - (c + 1))) + 1 := by omega
      rw [hval, hminD, hminEq]
      rfl
    · rw [if_neg hlt]
      have hnc : nv ≤ c := by
        rw [h1, h3] at hlt
        exact_mod_cast not_lt.mp hlt
      have hmin0 : min (j + 1) (nv - c) = 0 := by omega
      rw [hmin0]
      exact ⟨rfl, rfl⟩

theorem groupLoad_zero_width_first (s : DeltaSt)
    (hmbs : s.miniBlockSize = 8) (hmb : s.miniBlock = 0) (hmbk : s.miniBlocks = 1)
    (hw : s.miniBlockWidths = [0]) (hi : s.i = 0)
    (hpos0 : 0 ≤ s.pos) (hposlen : s.pos ≤ (s.data.length : Int))
    (hnv : s.numValues ≤ 8) :
    groupLoad s =
      ({ s with miniBlockWidth := 0, miniBlockPos := 0, miniBlock := 1, miniBlockValues := List.replicate 8 0 }, none) := by
  have htdiv : (8 : Int).tdiv 8 = 1 := by decide
  unfold groupLoad
  rw [if_neg (by rw [hmbs]; norm_num)]
  rw [if_pos (by rw [hi, hmbs]; rfl : s.i.tmod s.miniBlockSize = 0)]
  have hsw : miniBlockSwitch s =
      ({ s with miniBlockWidth := 0, miniBlockPos := 0, miniBlock := s.miniBlock + 1 }, none) := by
    unfold miniBlockSwitch
    rw [if_neg (by rw [hmb, hmbk]; norm_num)]
    dsimp only
    rw [if_neg (by rw [hmb]; norm_num)]
    rw [show s.miniBlockWidths.get? s.miniBlock.toNat = some 0 by rw [hw, hmb]; rfl]
    dsimp only
    rw [if_neg (by norm_num)]
  rw [hsw]
  try dsimp only
  unfold groupLoadRead
  try dsimp only
  rw [if_neg (by push_cast; omega)]
  rw [if_neg (by omega)]
  try dsimp only
  rw [if_pos (by rw [hi]; push_cast; omega)]
  rw [unpack8_zero]
  simp only [Prod.mk.injEq, DeltaSt.mk.injEq, and_true, true_and, hmb, hmbs, htdiv]
  push_cast
  exact ⟨by omega, trivial, trivial⟩

theorem familyData_init (v0 m : Int) (N : Nat)
    (hv1 : -9223372036854775808 ≤ v0) (hv2 : v0 < 9223372036854775808)
    (hm1 : -9223372036854775808 ≤ m) (hm2 : m < 9223372036854775808)
    (hN : N < 2147483648) :
    (deltaInit (familyData v0 m N)).2 = none ∧
    (deltaInit (familyData v0 m N)).1.data = familyData v0 m N ∧
    (deltaInit (familyData v0 m N)).1.miniBlockSize = 8 ∧
    (deltaInit (familyData v0 m N)).1.miniBlocks = 1 ∧
    (deltaInit (familyData v0 m N)).1.miniBlock = 0 ∧
    (deltaInit (familyData v0 m N)).1.miniBlockWidths = [0] ∧
    (deltaInit (familyData v0 m N)).1.numValues = (N : Int) ∧
    (deltaInit (familyData v0 m N)).1.minDelta = m ∧
    (deltaInit (familyData v0 m N)).1.value = v0 ∧
    (deltaInit (familyData v0 m N)).1.i = 0 ∧
    (deltaInit (familyData v0 m N)).1.miniBlockValues = List.replicate 8 0 ∧
    0 ≤ (deltaInit (familyData v0 m N)).1.pos ∧
    (deltaInit (familyData v0 m N)).1.pos ≤ ((familyData v0 m N).length : Int) := by
  rcases hr : deltaInit (familyData v0 m N) with ⟨S, e⟩
  unfold deltaInit at hr
  rcases hpg : readPageHeader (deltaZero (familyData v0 m N)) with ⟨S1, e1⟩
  rw [hpg] at hr
  unfold readPageHeader at hpg
  dsimp only [deltaZero] at hpg
  rw [sliceFrom_zero] at hpg
  try dsimp only at hpg
  unfold familyData at hpg
  rw [varInt32_encode_small 8 _ (by norm_num)] at hpg
  try dsimp only at hpg
  simp only [zero_add] at hpg
  rw [sliceFrom_append] at hpg
  try dsimp only at hpg
  rw [varInt32_encode_small 1 _ (by norm_num)] at hpg
  try dsimp only at hpg
  rw [if_neg (by norm_num : ¬ (((1 : Nat) : Int) < 0))] at hpg
  have hrep1 : List.replicate (((1 : Nat) : Int)).toNat (0 : Nat) = [0] := rfl
  rw [hrep1] at hpg
  rw [if_neg (by norm_num : ¬ (((1 : Nat) : Int) = 0))] at hpg
  try dsimp only at hpg
  have hc2 : (((encVarint 8).length : Int) + ((encVarint 1).length : Int))
      = (((encVarint 8 ++ encVarint 1).length : Nat) : Int) := by
    simp only [List.length_append]
    push_cast
    ring
  rw [hc2] at hpg
  rw [show encVarint 8 ++ (encVarint 1 ++ (encVarint N ++ (encZigZag v0 ++ (encZigZag m ++ [0]))))
      = (encVarint 8 ++ encVarint 1) ++ (encVarint N ++ (encZigZag v0 ++ (encZigZag m ++ [0])))
      from (List.append_assoc _ _ _).symm] at hpg
  rw [sliceFrom_append] at hpg
  try dsimp only at hpg
  rw [varInt32_encode_small N _ hN] at hpg
  try dsimp only at hpg
  have hc3 : ((((encVarint 8 ++ encVarint 1).length : Nat) : Int) + ((encVarint N).length : Int))
      = ((((encVarint 8 ++ encVarint 1) ++ encVarint N).length : Nat) : Int) := by
    simp only [List.length_append]
    push_cast
    ring
  rw [hc3] at hpg
  rw [show (encVarint 8 ++ encVarint 1) ++ (encVarint N ++ (encZigZag v0 ++ (encZigZag m ++ [0])))
      = ((encVarint 8 ++ encVarint 1) ++ encVarint N) ++ (encZigZag v0 ++ (encZigZag m ++ [0]))
      from (List.append_assoc _ _ _).symm] at hpg
  rw [sliceFrom_append] at hpg
  try dsimp only at hpg
  rw [zigZagVarInt64_encode v0 _ hv1 hv2] at hpg
  try dsimp only at hpg
  cases hpg
  try dsimp only at hr
  unfold readBlockHeader at hr
  try dsimp only at hr
  have hc4 : (((((encVarint 8 ++ encVarint 1) ++ encVarint N).length : Nat) : Int)
        + ((encZigZag v0).length : Int))
      = (((((encVarint 8 ++ encVarint 1) ++ encVarint N) ++ encZigZag v0).length : Nat) : Int) := by
    simp only [List.length_append]
    push_cast
    ring
  rw [hc4] at hr
  rw [show ((encVarint 8 ++ encVarint 1) ++ encVarint N) ++ (encZigZag v0 ++ (encZigZag m ++ [0]))
      = (((encVarint 8 ++ encVarint 1) ++ encVarint N) ++ encZigZag v0) ++ (encZigZag m ++ [0])
      from (List.append_assoc _ _ _).symm] at hr
  rw [sliceFrom_append] at hr
  try dsimp only at hr
  rw [zigZagVarInt64_encode m _ hm1 hm2] at hr
  try dsimp only at hr
  have hc5 : ((((((encVarint 8 ++ encVarint 1) ++ encVarint N) ++ encZigZag v0).length : Nat) : Int)
        + ((encZigZag m).length : Int))
      = ((((((encVarint 8 ++ encVarint 1) ++ encVarint N) ++ encZigZag v0) ++ encZigZag m).length
          : Nat) : Int) := by
    simp only [List.length_append]
    push_cast
    ring
  rw [hc5] at hr
  rw [show (((encVarint 8 ++ encVarint 1) ++ encVarint N) ++ encZigZag v0) ++ (encZigZag m ++ [0])
      = ((((encVarint 8 ++ encVarint 1) ++ encVarint N) ++ encZigZag v0) ++ encZigZag m) ++ [0]
      from (List.append_assoc _ _ _).symm] at hr
  rw [sliceFrom_append] at hr
  try dsimp only at hr
  rw [if_neg (by decide : ¬ (min ([0] : List Nat).length ([0] : List Nat).length
      ≠ ([0] : List Nat).length))] at hr
  cases hr
  refine ⟨rfl, ?_, by show i32 (((8 : Nat) : Int).tdiv ((1 : Nat) : Int)) = 8; decide,
    rfl, rfl, rfl, rfl, rfl, rfl, rfl, rfl, ?_, ?_⟩
  · show ((((encVarint 8 ++ encVarint 1) ++ encVarint N) ++ encZigZag v0) ++ encZigZag m) ++ [0]
      = familyData v0 m N
    unfold familyData
    simp [List.append_assoc]
  · show (0 : Int) ≤ _ + ((min ([0] : List Nat).length ([0] : List Nat).length : Nat) : Int)
    positivity
  · show _ + ((min ([0] : List Nat).length ([0] : List Nat).length : Nat) : Int)
      ≤ ((familyData v0 m N).length : Int)
    unfold familyData
    simp only [List.length_append, List.length_cons, List.length_nil]
    push_cast
    omega

theorem getD_map_range (f : Nat → Int) (k N : Nat) (h : k < N) :
    ((List.range N).map f).getD k 0 = f k := by
  rw [List.getD_eq_getElem?_getD, List.getElem?_map, List.getElem?_range h]
  rfl

/-- The decoder's state trace: `loopState s j` is the decoder state
right after the group-load phase of the iteration that produces the j-th
value from state `s` (the group and block-header loads never change the
accumulator, and `advance` moves it between iterations).  It is defined
for every stream and every index; the values an actual run writes into
the destination coincide with this trace for as long as the run produces
values. -/
def loopState (s : DeltaSt) : Nat → DeltaSt
  | 0 => (groupStep s).1
  | j + 1 => (groupStep (advance (loopState s j))).1

theorem loopState_i (s : DeltaSt) : ∀ j : Nat, (loopState s j).i = s.i + (j : Int) := by
  intro j
  induction j with
  | zero =>
    show (groupStep s).1.i = s.i + ((0 : Nat) : Int)
    obtain ⟨⟨-, -, hi, -, -, -⟩, -, -⟩ := groupStep_spec s
    rw [hi]
    push_cast
    ring
  | succ j ih =>
    show (groupStep (advance (loopState s j))).1.i = s.i + ((j + 1 : Nat) : Int)
    obtain ⟨⟨-, -, hi, -, -, -⟩, -, -⟩ := groupStep_spec (advance (loopState s j))
    rw [hi, (advance_fields (loopState s j)).2.2.2.2, ih]
    push_cast
    ring

theorem loopState_succ_value (s : DeltaSt) (j : Nat) :
    (loopState s (j + 1)).value
      = i64 ((loopState s j).value
          + (loopState s j).miniBlockValues.getD (((loopState s j).i).tmod 8).toNat 0
          + (loopState s j).minDelta) := by
  show (groupStep (advance (loopState s j))).1.value = _
  obtain ⟨⟨-, -, -, hv, -, -⟩, -, -⟩ := groupStep_spec (advance (loopState s j))
  rw [hv]
  rfl

theorem loopState_shift (s : DeltaSt) : ∀ j : Nat,
    loopState s (j + 1) = loopState (advance (groupStep s).1) j := by
  intro j
  induction j with
  | zero => rfl
  | succ j ih =>
    show (groupStep (advance (loopState s (j + 1)))).1
        = (groupStep (advance (loopState (advance (groupStep s).1) j))).1
    rw [ih]

theorem decodeLoop_getD_loopState :
    ∀ (k : Nat) (s t : DeltaSt) (vs : List Int) (e : Option Err),
      decodeLoop s k = (t, vs, e) →
      ∀ j : Nat, j < vs.length → vs.getD j 0 = (loopState s j).value := by
  intro k
  induction k with
  | zero =>
    intro s t vs e h j hj
    simp only [decodeLoop, Prod.mk.injEq] at h
    obtain ⟨-, rfl, -⟩ := h
    simp at hj
  | succ k ih =>
    intro s t vs e h j hj
    rw [show decodeLoop s (k + 1) =
        (if s.i < s.numValues then
          match groupStep s with
          | (s1, some e) => (s1, [], some e)
          | (s1, none) =>
            let r := decodeLoop (advance s1) k
            (r.1, s1.value :: r.2.1, r.2.2)
        else (s, [], none)) from rfl] at h
    by_cases hlt : s.i < s.numValues
    · rw [if_pos hlt] at h
      rcases hg : groupStep s with ⟨s1, e1⟩
      rw [hg] at h
      cases e1 with
      | some e2 =>
        dsimp only at h
        obtain ⟨-, rfl, -⟩ : s1 = t ∧ ([] : List Int) = vs ∧ (some e2 : Option Err) = e := by
          simpa using h
        simp at hj
      | none =>
        dsimp only at h
        rcases hrec : decodeLoop (advance s1) k with ⟨t2, vs2, e2⟩
        rw [hrec] at h
        dsimp only at h
        obtain ⟨rfl, hv, -⟩ : t2 = t ∧ s1.value :: vs2 = vs ∧ e2 = e := by
          simpa using h
        cases j with
        | zero =>
          rw [← hv]
          show s1.value = (loopState s 0).value
          rw [show loopState s 0 = (groupStep s).1 from rfl, hg]
        | succ j =>
          rw [← hv]
          show vs2.getD j 0 = (loopState s (j + 1)).value
          rw [loopState_shift, show (groupStep s).1 = s1 from by rw [hg]]
          refine ih (advance s1) t2 vs2 e2 hrec j ?_
          rw [← hv] at hj
          simpa using hj
    · rw [if_neg hlt] at h
      obtain ⟨-, rfl, -⟩ : s = t ∧ ([] : List Int) = vs ∧ (none : Option Err) = e := by
        simpa using h
      simp at hj

theorem decodeLoop_empty_value :
    ∀ (k : Nat) (s t : DeltaSt) (e : Option Err),
      decodeLoop s k = (t, [], e) → t.value = s.value := by
  intro k s t e h
  cases k with
  | zero =>
    simp only [decodeLoop, Prod.mk.injEq] at h
    obtain ⟨rfl, -, -⟩ := h
    rfl
  | succ k =>
    rw [show decodeLoop s (k + 1) =
        (if s.i < s.numValues then
          match groupStep s with
          | (s1, some e) => (s1, [], some e)
          | (s1, none) =>
            let r := decodeLoop (advance s1) k
            (r.1, s1.value :: r.2.1, r.2.2)
        else (s, [], none)) from rfl] at h
    by_cases hlt : s.i < s.numValues
    · rw [if_pos hlt] at h
      obtain ⟨⟨-, -, -, hval, -, -⟩, -, -⟩ := groupStep_spec s
      rcases hg : groupStep s with ⟨s1, e1⟩
      rw [hg] at h hval
      dsimp only at hval
      cases e1 with
      | some e2 =>
        dsimp only at h
        obtain ⟨rfl, -, -⟩ : s1 = t ∧ ([] : List Int) = [] ∧ (some e2 : Option Err) = e := by
          simpa using h
        exact hval
      | none =>
        dsimp only at h
        exact absurd (congrArg (fun p => p.2.1) h) (by simp)
    · rw [if_neg hlt] at h
      obtain ⟨rfl, -, -⟩ : s = t ∧ ([] : List Int) = [] ∧ (none : Option Err) = e := by
        simpa using h
      rfl

theorem decodeLoop_last_value :
    ∀ (k : Nat) (s t : DeltaSt) (vs : List Int) (e : Option Err),
      decodeLoop s k = (t, vs, e) → 0 < vs.length →
      t.value = (advance (loopState s (vs.length - 1))).value := by
  intro k
  induction k with
  | zero =>
    intro s t vs e h hpos
    simp only [decodeLoop, Prod.mk.injEq] at h
    obtain ⟨-, rfl, -⟩ := h
    simp at hpos
  | succ k ih =>
    intro s t vs e h hpos
    rw [show decodeLoop s (k + 1) =
        (if s.i < s.numValues then
          match groupStep s with
          | (s1, some e) => (s1, [], some e)
          | (s1, none) =>
            let r := decodeLoop (advance s1) k
            (r.1, s1.value :: r.2.1, r.2.2)
        else (s, [], none)) from rfl] at h
    by_cases hlt : s.i < s.numValues
    · rw [if_pos hlt] at h
      rcases hg : groupStep s with ⟨s1, e1⟩
      rw [hg] at h
      cases e1 with
      | some e2 =>
        dsimp only at h
        obtain ⟨-, rfl, -⟩ : s1 = t ∧ ([] : List Int) = vs ∧ (some e2 : Option Err) = e := by
          simpa using h
        simp at hpos
      | none =>
        dsimp only at h
        rcases hrec : decodeLoop (advance s1) k with ⟨t2, vs2, e2⟩
        rw [hrec] at h
        dsimp only at h
        obtain ⟨rfl, hv, rfl⟩ : t2 = t ∧ s1.value :: vs2 = vs ∧ e2 = e := by
          simpa using h
        have hs1 : (groupStep s).1 = s1 := by rw [hg]
        rcases Nat.eq_zero_or_pos vs2.length with hz | hpos2
        · have hvs2 : vs2 = [] := List.length_eq_zero.mp hz
          subst hvs2
          have := decodeLoop_empty_value k (advance s1) t2 e2 hrec
          rw [this, ← hv]
          show (advance s1).value = (advance (loopState s 0)).value
          rw [show loopState s 0 = (groupStep s).1 from rfl, hs1]
        · have := ih (advance s1) t2 vs2 e2 hrec hpos2
          rw [this, ← hv]
          show (advance (loopState (advance s1) (vs2.length - 1))).value
              = (advance (loopState s ((s1.value :: vs2).length - 1))).value
          have key : ∀ n : Nat, loopState s (n + 1) = loopState (advance s1) n := by
            intro n
            rw [loopState_shift, hs1]
          have hlen : (s1.value :: vs2).length - 1 = (vs2.length - 1) + 1 := by
            simp only [List.length_cons]
            omega
          rw [hlen, key (vs2.length - 1)]
    · rw [if_neg hlt] at h
      obtain ⟨-, rfl, -⟩ : s = t ∧ ([] : List Int) = vs ∧ (none : Option Err) = e := by
        simpa using h
      simp at hpos

/-- C4 amended: the value at logical index 0 equals the page header's
first value (fully general); for every stream, the values produced by
any run follow the decoder's state trace, whose counter is the logical
index, and every subsequent trace value equals the previous value plus
the raw unpacked delta for that index (the current group entry) plus the
current block's min delta, computed with 64-bit wrap-around; the
accumulator carries across decodeInt64 call boundaries; whenever the raw
deltas consumed are zero and the min delta is negative, the produced
sequence steps down by exactly |minDelta| provided no int64 underflow
occurs; the zero-width single-block family instantiates all of this
concretely with sequence `k ↦ i64(v0 + k*minDelta)` (the unamended
integer equation fails only at the wrap-around, see the
counterexample). -/
theorem delta_value_reconstruction_amended (v0 m : Int) (N : Nat)
    (hv1 : -9223372036854775808 ≤ v0) (hv2 : v0 < 9223372036854775808)
    (hm1 : -9223372036854775808 ≤ m) (hm2 : m < 9223372036854775808)
    (hN1 : 0 < N) (hN2 : N ≤ 8) :
    (∀ (data : List Nat) (k : Nat) (t : DeltaSt) (v : Int) (vs : List Int) (e : Option Err),
       decodeLoop (deltaInit data).1 k = (t, v :: vs, e) → v = (deltaInit data).1.value) ∧
    (∀ (u t : DeltaSt) (k : Nat) (vs : List Int) (e : Option Err),
       decodeLoop u k = (t, vs, e) → ∀ j : Nat, j < vs.length →
         vs.getD j 0 = (loopState u j).value ∧ (loopState u j).i = u.i + (j : Int)) ∧
    (∀ (u : DeltaSt) (j : Nat),
       (loopState u (j + 1)).value
         = i64 ((loopState u j).value
             + (loopState u j).miniBlockValues.getD (((loopState u j).i).tmod 8).toNat 0
             + (loopState u j).minDelta)) ∧
    (∀ (u t : DeltaSt) (k : Nat) (vs : List Int) (e : Option Err)
       (k2 : Nat) (t2 : DeltaSt) (v2 : Int) (vs2 : List Int) (e2 : Option Err),
       decodeLoop u k = (t, vs, e) → 0 < vs.length →
       decodeLoop t k2 = (t2, v2 :: vs2, e2) →
       v2 = i64 (vs.getD (vs.length - 1) 0
             + (loopState u (vs.length - 1)).miniBlockValues.getD
                 (((loopState u (vs.length - 1)).i).tmod 8).toNat 0
             + (loopState u (vs.length - 1)).minDelta)) ∧
    (∀ (u t : DeltaSt) (k : Nat) (vs : List Int) (e : Option Err) (md : Int),
       decodeLoop u k = (t, vs, e) →
       (∀ j : Nat, j + 1 < vs.length →
          (loopState u j).miniBlockValues = List.replicate 8 0 ∧ (loopState u j).minDelta = md) →
       md < 0 →
       (∀ j : Nat, j + 1 < vs.length →
          vs.getD j 0 < 9223372036854775808 ∧ -9223372036854775808 ≤ vs.getD j 0 + md) →
       ∀ j : Nat, j + 1 < vs.length → vs.getD (j + 1) 0 = vs.getD j 0 + md) ∧
    ((deltaInit (familyData v0 m N)).2 = none ∧
     ((deltaInit (familyData v0 m N)).1.decodeInt64 N).2.2 = none ∧
     ((deltaInit (familyData v0 m N)).1.decodeInt64 N).2.1
        = (List.range N).map (fun k : Nat => i64 (v0 + (k : Int) * m))) ∧
    ((∀ j : Nat, j < N → -9223372036854775808 ≤ v0 + (j : Int) * m) → m < 0 →
      ∀ k : Nat, k + 1 < N →
        ((deltaInit (familyData v0 m N)).1.decodeInt64 N).2.1.getD (k + 1) 0
          = ((deltaInit (familyData v0 m N)).1.decodeInt64 N).2.1.getD k 0 + m) := by
  obtain ⟨f0, fd, fms, fmk, fmb, fw, fnv, fmd, fv, fi, fmv, fp0, fpl⟩ :=
    familyData_init v0 m N hv1 hv2 hm1 hm2 (by omega)
  set s := (deltaInit (familyData v0 m N)).1 with hs
  have hload : groupLoad s =
      ({ s with miniBlockWidth := 0, miniBlockPos := 0, miniBlock := 1, miniBlockValues := List.replicate 8 0 }, none) := by
    refine groupLoad_zero_width_first s fms fmb fmk fw fi fp0 ?_ ?_
    · rw [fd]
      exact fpl
    · rw [fnv]
      exact_mod_cast hN2
  have hgstep : groupStep s =
      ({ s with miniBlockWidth := 0, miniBlockPos := 0, miniBlock := 1, miniBlockValues := List.replicate 8 0 }, none) := by
    unfold groupStep
    rw [if_pos (by rw [fi]; rfl), hload]
  have hrun := decodeLoop_zero_width_run (N - 1) 1 N
    (advance { s with miniBlockWidth := 0, miniBlockPos := 0, miniBlock := 1, miniBlockValues := List.replicate 8 0 })
    (by show s.numValues = _; exact fnv) hN2
    (by show s.i + 1 = _; rw [fi]; norm_num)
    le_rfl rfl
  have hadvval :
      (advance { s with miniBlockWidth := 0, miniBlockPos := 0, miniBlock := 1, miniBlockValues := List.replicate 8 0 }).value
        = i64 (v0 + m) := by
    show i64 (s.value + (List.replicate 8 (0 : Int)).getD ((s.i.tmod 8).toNat) 0 + s.minDelta)
      = _
    rw [getD_replicate_eight, add_zero, fv, fmd]
  have hadvmd :
      (advance { s with miniBlockWidth := 0, miniBlockPos := 0, miniBlock := 1, miniBlockValues := List.replicate 8 0 }).minDelta
        = m := fmd
  have hloop : (decodeLoop s N).2.1 = i64Seq v0 m N ∧ (decodeLoop s N).2.2 = none := by
    rw [show N = (N - 1) + 1 by omega]
    rw [show decodeLoop s ((N - 1) + 1) =
        (if s.i < s.numValues then
          match groupStep s with
          | (s1, some e) => (s1, [], some e)
          | (s1, none) =>
            let r := decodeLoop (advance s1) (N - 1)
            (r.1, s1.value :: r.2.1, r.2.2)
        else (s, [], none)) from rfl]
    rw [if_pos (by rw [fi, fnv]; exact_mod_cast hN1)]
    rw [hgstep]
    dsimp only
    obtain ⟨r1, r2⟩ := hrun
    rw [r1, r2, hadvval, hadvmd]
    refine ⟨?_, rfl⟩
    have hmin : min (N - 1) (N - 1) = N - 1 := by omega
    rw [hmin]
    show s.value :: i64Seq (i64 (v0 + m)) m (N - 1) = i64Seq v0 m ((N - 1) + 1)
    rw [fv]
    rfl
  have hmap : (decodeLoop s N).2.1
      = (List.range N).map (fun k : Nat => i64 (v0 + (k : Int) * m)) := by
    rw [hloop.1, i64Seq_eq_map m N v0 (i64_eq_self hv1 hv2)]
  have hne : (decodeLoop s N).2.1.length ≠ 0 := by
    rw [hloop.1]
    rw [show N = (N - 1) + 1 by omega]
    simp [i64Seq]
  have hdec : (DeltaSt.decodeInt64 s N).2.1
        = (List.range N).map (fun k : Nat => i64 (v0 + (k : Int) * m)) ∧
      (DeltaSt.decodeInt64 s N).2.2 = none := by
    unfold DeltaSt.decodeInt64
    rcases hl : decodeLoop s N with ⟨t, vs, e⟩
    rw [hl] at hmap hne hloop
    cases e with
    | some e1 => exact absurd hloop.2 (by simp)
    | none =>
      dsimp only at hmap hne ⊢
      rw [if_neg hne]
      exact ⟨hmap, rfl⟩
  refine ⟨?_, ?_, ?_, ?_, ?_, ⟨f0, hdec.2, hdec.1⟩, ?_⟩
  · intro data k t v vs e h
    exact decodeLoop_first_value k (deltaInit data).1 t v vs e h
  · intro u t k vs e h j hj
    exact ⟨decodeLoop_getD_loopState k u t vs e h j hj, loopState_i u j⟩
  · intro u j
    exact loopState_succ_value u j
  · intro u t k vs e k2 t2 v2 vs2 e2 h hpos h2
    have hfst := decodeLoop_first_value k2 t t2 v2 vs2 e2 h2
    have hlast := decodeLoop_last_value k u t vs e h hpos
    have hg := decodeLoop_getD_loopState k u t vs e h (vs.length - 1) (by omega)
    rw [hfst, hlast]
    show i64 ((loopState u (vs.length - 1)).value
        + (loopState u (vs.length - 1)).miniBlockValues.getD
            (((loopState u (vs.length - 1)).i).tmod 8).toNat 0
        + (loopState u (vs.length - 1)).minDelta) = _
    rw [← hg]
  · intro u t k vs e md h hzero hmd hrange j hj
    have h2 := decodeLoop_getD_loopState k u t vs e h (j + 1) hj
    have h1 := decodeLoop_getD_loopState k u t vs e h j (by omega)
    obtain ⟨hz, hm⟩ := hzero j hj
    rw [h2, loopState_succ_value, hz, getD_replicate_eight, add_zero, hm, ← h1]
    obtain ⟨hu, hl⟩ := hrange j hj
    exact i64_eq_self hl (by omega)
  · intro hlow hmneg k hk
    rw [hdec.1, getD_map_range _ _ _ (by omega), getD_map_range _ _ _ (by omega)]
    have hub : ∀ j : Nat, (j : Int) * m ≤ 0 := fun j =>
      mul_nonpos_iff.mpr (Or.inl ⟨by exact_mod_cast Nat.zero_le j, le_of_lt hmneg⟩)
    have he1 : i64 (v0 + ((k + 1 : Nat) : Int) * m) = v0 + ((k + 1 : Nat) : Int) * m := by
      refine i64_eq_self (hlow (k + 1) (by omega)) ?_
      have := hub (k + 1)
      omega
    have he2 : i64 (v0 + (k : Int) * m) = v0 + (k : Int) * m := by
      refine i64_eq_self (hlow k (by omega)) ?_
      have := hub k
      omega
    rw [he1, he2]
    push_cast
    ring

/-- C4 witness: first value 10, min delta -1, five values: the family
decodes to [10, 9, 8, 7, 6], strictly decreasing by exactly 1. -/
theorem delta_value_reconstruction_amended_witness :
    (∀ (data : List Nat) (k : Nat) (t : DeltaSt) (v : Int) (vs : List Int) (e : Option Err),
       decodeLoop (deltaInit data).1 k = (t, v :: vs, e) → v = (deltaInit data).1.value) ∧
    ((deltaInit (familyData 10 (-1) 5)).2 = none ∧
     ((deltaInit (familyData 10 (-1) 5)).1.decodeInt64 5).2.2 = none ∧
     ((deltaInit (familyData 10 (-1) 5)).1.decodeInt64 5).2.1
        = (List.range 5).map (fun k : Nat => i64 (10 + (k : Int) * (-1)))) ∧
    (∀ k : Nat, k + 1 < 5 →
        ((deltaInit (familyData 10 (-1) 5)).1.decodeInt64 5).2.1.getD (k + 1) 0
          = ((deltaInit (familyData 10 (-1) 5)).1.decodeInt64 5).2.1.getD k 0 + (-1)) := by
  have H := delta_value_reconstruction_amended 10 (-1) 5 (by decide) (by decide) (by decide)
    (by decide) (by decide) (by decide)
  exact ⟨H.1, H.2.2.2.2.2.1, H.2.2.2.2.2.2 (fun j hj => by omega) (by decide)⟩
